import Mathlib

/-!
Verification of the deadlock analysis and simulation engine.

The Python sources are shallowly embedded:
* Python `dict` (insertion ordered, unique keys) becomes `Dict α`, an
  association list; value assignment to an existing key keeps its position,
  a new key is appended, matching CPython dict semantics.
* Mutating methods of `SystemState` (src/niki/engine/state.py) become
  functions `SystemState → ... → SystemState × Except String Bool`:
  the returned state is the object after the call, `.error` models a raised
  `ValueError`/`KeyError` (in the source every raise happens before any
  mutation, except inside `remove_process`, where the partially mutated
  state is returned), `.ok b` models a normal return of `b`.
* Unit counts are `Nat`: the API validates them non-negative on entry
  (`total_units < 0`, `units <= 0`, `units < 0` all raise), so the states
  reachable through the API have non-negative entries everywhere; `need`
  is computed in `Int` exactly as Python does (`max_claim - allocated`
  may be negative on arbitrary states).
-/

/-- Association list standing for a Python `dict` with `String` keys. -/
abbrev Dict (α : Type) : Type := List (String × α)

namespace Dict

/-- Lookup, first matching key (the only one when keys are nodup). -/
def get? {α : Type} : Dict α → String → Option α
  | [], _ => none
  | (k', v) :: rest, k => if k' = k then some v else get? rest k

/-- Lookup with default, Python `d.get(k, v₀)`. -/
def getD {α : Type} (d : Dict α) (k : String) (v₀ : α) : α :=
  (d.get? k).getD v₀

/-- Python `k in d`. -/
def hasKey {α : Type} (d : Dict α) (k : String) : Bool :=
  (d.get? k).isSome

/-- Python `d[k] = v`: replace in place if present, append if absent. -/
def set {α : Type} : Dict α → String → α → Dict α
  | [], k, v => [(k, v)]
  | (k', v') :: rest, k, v =>
      if k' = k then (k', v) :: rest else (k', v') :: set rest k v

/-- Python `del d[k]` (key present in all uses below). -/
def erase {α : Type} (d : Dict α) (k : String) : Dict α :=
  d.filter (fun e => e.1 ≠ k)

/-- Python `d.keys()` in insertion order. -/
def keys {α : Type} (d : Dict α) : List String :=
  d.map Prod.fst

end Dict

/-- Structured event-log record; the `timestamp` field of the source equals
the record's position in the log, so it is left implicit. -/
inductive LogEntry where
  | resourceAdded (resource : String) (units : Nat)
  | processAdded (process : String) (maxClaims : Dict Nat)
  | requestRejected (process resource : String) (units : Nat) (reason : String)
  | requestRecorded (process resource : String) (units : Nat)
  | allocationSkipped (process resource : String) (units : Nat)
  | allocationFailed (process resource : String) (units : Nat) (reason : String)
  | allocationDone (process resource : String) (units : Nat)
  | releaseFailed (process resource : String) (units : Nat) (reason : String)
  | releaseDone (process resource : String) (units : Nat)
  | processRemoved (process : String)
deriving DecidableEq

/-- Dataclass `Resource` of state.py. -/
structure Resource where
  id : String
  total_units : Nat
  available_units : Nat
deriving DecidableEq

/-- Dataclass `Process` of state.py. -/
structure Process where
  id : String
  max_claims : Dict Nat
  allocated : Dict Nat
  requested : Dict Nat
  priority : Int
deriving DecidableEq

/-- `Process.need` of state.py: `max_claims.get(r, 0) - allocated.get(r, 0)`,
an `Int` because Python subtraction may go negative on arbitrary states. -/
def Process.need (p : Process) (resource_id : String) : Int :=
  (p.max_claims.getD resource_id 0 : Int) - (p.allocated.getD resource_id 0 : Int)

/-- Class `SystemState` of state.py. -/
structure SystemState where
  resources : Dict Resource
  processes : Dict Process
  event_log : List LogEntry
deriving DecidableEq

/-- The freshly constructed empty state. -/
def initState : SystemState := ⟨[], [], []⟩

/-- `_log_event`: append one structured record. -/
def SystemState.logEvent (s : SystemState) (e : LogEntry) : SystemState :=
  { s with event_log := s.event_log ++ [e] }

/-- `SystemState.add_resource`.  A negative `total_units` cannot be expressed
in the `Nat` embedding (the source raises before mutating in that case). -/
def SystemState.add_resource (s : SystemState) (resource_id : String)
    (total_units : Nat) : SystemState × Except String Bool :=
  if s.resources.hasKey resource_id then
    (s, .error "resource already exists")
  else
    let rs := s.resources.set resource_id ⟨resource_id, total_units, total_units⟩
    let s1 := { s with resources := rs }
    (s1.logEvent (.resourceAdded resource_id total_units), .ok true)

/-- Validation loop of `add_process` over the `max_claims` items: first
violation raises. -/
def claimsError (s : SystemState) : Dict Nat → Option String
  | [] => none
  | (res_id, units) :: rest =>
      if !s.resources.hasKey res_id then
        some ("Resource " ++ res_id ++ " does not exist")
      else if units > (match s.resources.get? res_id with
                       | some r => r.total_units
                       | none => 0) then
        some ("max claim for " ++ res_id ++ " exceeds total units")
      else claimsError s rest

/-- `SystemState.add_process`. -/
def SystemState.add_process (s : SystemState) (process_id : String)
    (max_claims : Dict Nat) (priority : Int) : SystemState × Except String Bool :=
  if s.processes.hasKey process_id then
    (s, .error "process already exists")
  else
    match claimsError s max_claims with
    | some e => (s, .error e)
    | none =>
        let ps := s.processes.set process_id ⟨process_id, max_claims, [], [], priority⟩
        let s1 := { s with processes := ps }
        (s1.logEvent (.processAdded process_id max_claims), .ok true)

/-- `SystemState.request`.  Validation order follows the source:
`_validate_process_and_resource`, then `units <= 0`, then the need check.
`units = 0` stands for Python's non-positive-units `ValueError`. -/
def SystemState.request (s : SystemState) (process_id resource_id : String)
    (units : Nat) : SystemState × Except String Bool :=
  match s.processes.get? process_id with
  | none => (s, .error "process does not exist")
  | some process =>
      if !s.resources.hasKey resource_id then
        (s, .error "resource does not exist")
      else if units = 0 then
        (s, .error "request units must be positive")
      else if (units : Int) > process.need resource_id then
        (s.logEvent (.requestRejected process_id resource_id units "exceeds_need"),
         .ok false)
      else
        let requested' :=
          process.requested.set resource_id
            (process.requested.getD resource_id 0 + units)
        let process' := { process with requested := requested' }
        let s1 := { s with processes := s.processes.set process_id process' }
        (s1.logEvent (.requestRecorded process_id resource_id units), .ok true)

/-- `SystemState.allocate`. -/
def SystemState.allocate (s : SystemState) (process_id resource_id : String)
    (units : Nat) : SystemState × Except String Bool :=
  match s.processes.get? process_id with
  | none => (s, .error "process does not exist")
  | some process =>
      match s.resources.get? resource_id with
      | none => (s, .error "resource does not exist")
      | some resource =>
          if units = 0 then
            (s.logEvent (.allocationSkipped process_id resource_id 0), .ok true)
          else if units > resource.available_units then
            (s.logEvent (.allocationFailed process_id resource_id units
              "insufficient_available"), .ok false)
          else
            let current_alloc := process.allocated.getD resource_id 0
            let max_claim := process.max_claims.getD resource_id 0
            if current_alloc + units > max_claim then
              (s.logEvent (.allocationFailed process_id resource_id units
                "exceeds_max_claim"), .ok false)
            else
              let allocated' := process.allocated.set resource_id (current_alloc + units)
              let requested' :=
                if process.requested.hasKey resource_id then
                  let newReq := process.requested.getD resource_id 0 - units
                  if newReq = 0 then process.requested.erase resource_id
                  else process.requested.set resource_id newReq
                else process.requested
              let process' := { process with allocated := allocated', requested := requested' }
              let resource' := { resource with
                available_units := resource.available_units - units }
              let s1 := { s with
                processes := s.processes.set process_id process',
                resources := s.resources.set resource_id resource' }
              (s1.logEvent (.allocationDone process_id resource_id units), .ok true)

/-- `SystemState.release`.  The source writes `allocated[res] = current - units`
then deletes the key when zero; for a present key this equals erase-or-set. -/
def SystemState.release (s : SystemState) (process_id resource_id : String)
    (units : Nat) : SystemState × Except String Bool :=
  match s.processes.get? process_id with
  | none => (s, .error "process does not exist")
  | some process =>
      match s.resources.get? resource_id with
      | none => (s, .error "resource does not exist")
      | some resource =>
          if units = 0 then
            (s, .error "release units must be positive")
          else
            let current_alloc := process.allocated.getD resource_id 0
            if units > current_alloc then
              (s.logEvent (.releaseFailed process_id resource_id units
                "insufficient_allocation"), .ok false)
            else
              let newAlloc := current_alloc - units
              let allocated' :=
                if newAlloc = 0 then process.allocated.erase resource_id
                else process.allocated.set resource_id newAlloc
              let process' := { process with allocated := allocated' }
              let resource' := { resource with
                available_units := resource.available_units + units }
              let s1 := { s with
                processes := s.processes.set process_id process',
                resources := s.resources.set resource_id resource' }
              (s1.logEvent (.releaseDone process_id resource_id units), .ok true)

/-- Loop of `remove_process` over `list(process.allocated.items())`: the list
is a snapshot taken before the first release; the boolean result of each
`release` is ignored by the source, a raise aborts the loop. -/
def releaseAll (s : SystemState) (process_id : String) :
    Dict Nat → SystemState × Except String Bool
  | [] => (s, .ok true)
  | (rid, u) :: rest =>
      match s.release process_id rid u with
      | (s1, .error e) => (s1, .error e)
      | (s1, .ok _) => releaseAll s1 process_id rest

/-- `SystemState.remove_process`. -/
def SystemState.remove_process (s : SystemState) (process_id : String) :
    SystemState × Except String Bool :=
  match s.processes.get? process_id with
  | none => (s, .error "process does not exist")
  | some process =>
      match releaseAll s process_id process.allocated with
      | (s1, .error e) => (s1, .error e)
      | (s1, .ok _) =>
          let s2 := { s1 with processes := s1.processes.erase process_id }
          (s2.logEvent (.processRemoved process_id), .ok true)

/-- One API call with its arguments. -/
inductive Op where
  | addResource (rid : String) (units : Nat)
  | addProcess (pid : String) (claims : Dict Nat) (priority : Int)
  | request (pid rid : String) (units : Nat)
  | allocate (pid rid : String) (units : Nat)
  | release (pid rid : String) (units : Nat)
  | removeProcess (pid : String)

/-- State after one call, successful, refused or raising. -/
def applyOp (s : SystemState) : Op → SystemState
  | .addResource rid u => (s.add_resource rid u).1
  | .addProcess pid claims prio => (s.add_process pid claims prio).1
  | .request pid rid u => (s.request pid rid u).1
  | .allocate pid rid u => (s.allocate pid rid u).1
  | .release pid rid u => (s.release pid rid u).1
  | .removeProcess pid => (s.remove_process pid).1

/-- State reached from the empty state by a call sequence. -/
def runOps (ops : List Op) : SystemState :=
  ops.foldl applyOp initState

/-!
Banker's algorithm, src/niki/engine/banker.py.

`find_safe_sequence` is a `while progress` loop over passes; each pass scans
the processes in insertion order, finishing every process whose needs fit in
`work` as it is encountered.  The loop is embedded with explicit fuel; the
source's loop terminates because every pass that sets `progress` finishes at
least one process, which is proved below as a stabilisation theorem.
-/

/-- Mutable locals of the safety loop: `work`, `finish`, the sequence built
so far and the `progress` flag of the current pass. -/
structure PassState where
  work : Dict Nat
  finish : Dict Bool
  seq : List String
  progress : Bool
deriving DecidableEq

/-- Inner check of one process: `need(p, r) <= work.get(r, 0)` for every
resource id (the source breaks out at the first failure). -/
def canFinish (proc : Process) (resource_ids : List String) (work : Dict Nat) : Bool :=
  resource_ids.all (fun rid => decide (proc.need rid ≤ (work.getD rid 0 : Int)))

/-- Work update when a process finishes:
`work[r] = work.get(r, 0) + allocated.get(r, 0)` for every resource id. -/
def addAllocToWork (proc : Process) (resource_ids : List String) (work : Dict Nat) : Dict Nat :=
  resource_ids.foldl (fun w rid => w.set rid (w.getD rid 0 + proc.allocated.getD rid 0)) work

/-- One pass of the `for pid, proc in state.processes.items()` loop. -/
def onePass (resource_ids : List String) :
    List (String × Process) → PassState → PassState
  | [], st => st
  | (pid, proc) :: rest, st =>
      if st.finish.getD pid false then
        onePass resource_ids rest st
      else if canFinish proc resource_ids st.work then
        onePass resource_ids rest
          { work := addAllocToWork proc resource_ids st.work,
            finish := st.finish.set pid true,
            seq := st.seq ++ [pid],
            progress := true }
      else
        onePass resource_ids rest st

/-- The `while progress` loop: reset `progress`, run a pass, stop after the
first pass that makes no progress (or when the fuel runs out). -/
def bankerLoop (procs : List (String × Process)) (resource_ids : List String) :
    Nat → PassState → PassState
  | 0, st => st
  | fuel + 1, st =>
      let st' := onePass resource_ids procs { st with progress := false }
      if st'.progress then bankerLoop procs resource_ids fuel st' else st'

/-- `find_safe_sequence` with explicit fuel for the outer loop. -/
def find_safe_sequence_fuel (s : SystemState) (fuel : Nat) :
    Bool × Option (List String) :=
  if s.processes.isEmpty then (true, some [])
  else
    let resource_ids := s.resources.keys
    let init : PassState :=
      { work := s.resources.map (fun e => (e.1, e.2.available_units)),
        finish := s.processes.map (fun e => (e.1, false)),
        seq := [],
        progress := true }
    let final := bankerLoop s.processes resource_ids fuel init
    let is_safe := final.finish.all (fun e => e.2)
    (is_safe, if is_safe then some final.seq else none)

/-- `find_safe_sequence` of banker.py; `|processes| + 1` passes always reach
the source loop's fixpoint (proved below). -/
def find_safe_sequence (s : SystemState) : Bool × Option (List String) :=
  find_safe_sequence_fuel s (s.processes.length + 1)

/-!
Wait-for graph and deadlock analysis, src/niki/engine/rag.py.

`build_wait_for_graph` inserts an edge `p → q` for every pending request of
`p` on a resource of which `q` holds at least one unit; `networkx.DiGraph`
collapses duplicate edges, so the edge list below is read as a set.
`analyze_deadlock` reports `has_deadlock` exactly when
`nx.simple_cycles(wfg)` is non-empty, i.e. when the wait-for graph has a
cycle; the external library's contract (a cycle is listed iff one exists) is
embedded as a decidable cycle-existence check.
-/

/-- Edge list of `build_wait_for_graph`, in construction order. -/
def wfgEdges (s : SystemState) : List (String × String) :=
  s.processes.flatMap (fun pe =>
    pe.2.requested.flatMap (fun re =>
      if re.2 = 0 then []
      else
        s.processes.filterMap (fun qe =>
          if qe.1 = pe.1 then none
          else if qe.2.allocated.getD re.1 0 > 0 then some (pe.1, qe.1)
          else none)))

/-- Successors of a node in an edge list. -/
def succsOf (edges : List (String × String)) (x : String) : List String :=
  edges.filterMap (fun e => if e.1 = x then some e.2 else none)

/-- Add every one-step successor of the accumulated nodes. -/
def reachExpand (edges : List (String × String)) (acc : List String) : List String :=
  acc.foldl
    (fun a x =>
      (succsOf edges x).foldl (fun b y => if b.contains y then b else b ++ [y]) a)
    acc

/-- Nodes reachable from `start` in at most `fuel` steps. -/
def reachSet (edges : List (String × String)) : Nat → List String → List String
  | 0, acc => acc
  | fuel + 1, acc => reachSet edges fuel (reachExpand edges acc)

/-- Cycle existence in a finite directed graph: some edge `(a, b)` closes a
path from `b` back to `a`; a shortest such path repeats no edge, so
`edges.length` expansion rounds suffice. -/
def hasCycle (edges : List (String × String)) : Bool :=
  edges.any (fun e => (reachSet edges edges.length [e.2]).contains e.1)

/-- The `has_deadlock` field of `analyze_deadlock`: the wait-for graph has a
cycle. -/
def hasDeadlock (s : SystemState) : Bool :=
  hasCycle (wfgEdges s)

/-!
Resource-ordering prevention policy, src/engine/policies.py.

`should_allow` is embedded with the configured order passed explicitly; when
it is empty the source lazily replaces it by the sorted resource ids of the
state (`sorted(state.resources.keys())`).  Python's `max()` over an empty
generator raises `ValueError`, embedded as `.error`; an unknown process id
raises `KeyError`.
-/

/-- Order actually used by the check: the configured one, or on first use the
state's resource ids in ascending lexicographic order. -/
def effectiveOrder (resource_order : List String) (s : SystemState) : List String :=
  if resource_order = [] then (s.resources.keys).mergeSort (fun a b => a ≤ b)
  else resource_order

/-- Held resources: `[r for r in allocated.keys() if allocated[r] > 0]`. -/
def heldResources (p : Process) : List String :=
  p.allocated.keys.filter (fun r => p.allocated.getD r 0 > 0)

/-- Ranks of the held resources that appear in the order
(`resource_order.index(r) for r in held_resources if r in resource_order`). -/
def heldRanks (ord : List String) (p : Process) : List Nat :=
  ((heldResources p).filter (fun r => ord.contains r)).map (fun r => ord.indexOf r)

/-- `ResourceOrderingPolicy.should_allow`. -/
def shouldAllow (resource_order : List String) (s : SystemState)
    (process_id : String) (request : Dict Nat) : Except String (Bool × String) :=
  let ord := effectiveOrder resource_order s
  match s.processes.get? process_id with
  | none => .error "KeyError"
  | some process =>
      if (heldResources process).isEmpty then
        .ok (true, "No resources held, request allowed")
      else
        match (heldRanks ord process).max? with
        | none => .error "ValueError: max() arg is an empty sequence"
        | some highest_held_idx =>
            match request.keys.find?
                (fun r => ord.contains r && decide (ord.indexOf r < highest_held_idx)) with
            | some r =>
                .ok (false, "Violates resource ordering: requesting " ++ r ++
                  " while holding higher-order resources")
            | none => .ok (true, "Follows resource ordering")

/-!
Reference-semantics model.

Claims about snapshot immutability and Banker non-mutation are decided by
Python object identity: `SystemState.snapshot` stores the live
`max_claims` / `allocated` / `requested` dict objects of each process in the
returned projection, while `clone` (`copy.deepcopy`) allocates fresh dicts.
The model keeps every per-process dict in a heap (`HHeap`, a list of dict
cells addressed by index); a `Process` of the reference model holds three
cell addresses.  Everything else (resources, the event log, the id maps) is
copied by value in the projections the claims talk about, so it is kept by
value here: `snapshot` rebuilds the resource entries from fresh ints and
computes `need` as a fresh dict, and `deepcopy` copies `Resource` objects.
-/

/-- Heap of dict cells; a cell address is its index. -/
abbrev HHeap : Type := List (Dict Nat)

/-- Contents of a cell, the empty dict for a dangling address. -/
def HHeap.read (h : HHeap) (r : Nat) : Dict Nat :=
  (h.get? r).getD []

/-- Overwrite one cell. -/
def HHeap.write (h : HHeap) (r : Nat) (d : Dict Nat) : HHeap :=
  h.set r d

/-- Process record of the reference model: three cell addresses. -/
structure HProcess where
  maxRef : Nat
  allocRef : Nat
  reqRef : Nat
  priority : Int
deriving DecidableEq

/-- System state of the reference model; resources and the log by value. -/
structure HState where
  resources : Dict Resource
  processes : Dict HProcess
  event_log : List LogEntry
deriving DecidableEq

/-- Read a heap process back into the value world. -/
def derefProcess (h : HHeap) (pid : String) (hp : HProcess) : Process :=
  ⟨pid, h.read hp.maxRef, h.read hp.allocRef, h.read hp.reqRef, hp.priority⟩

/-- Read a whole heap state back into the value world. -/
def toValue (h : HHeap) (s : HState) : SystemState :=
  ⟨s.resources, s.processes.map (fun e => (e.1, derefProcess h e.1 e.2)), s.event_log⟩

/-- `Process.total_need` of state.py: need over `max_claims ∪ allocated` keys
(the source builds a fresh dict; key order of a Python set union is not
observable in the claims, the embedding uses first-occurrence order). -/
def totalNeed (p : Process) : Dict Nat :=
  ((p.max_claims.keys ++ p.allocated.keys).eraseDup).map
    (fun r => (r, (p.need r).toNat))

/-- Snapshot entry for one process: the three live dict addresses, plus
`need` and `priority` computed by value at snapshot time. -/
structure SnapProcEntry where
  maxRef : Nat
  allocRef : Nat
  reqRef : Nat
  need : Dict Nat
  priority : Int
deriving DecidableEq

/-- `SystemState.snapshot`: resources projected to fresh values, processes
projected to entries that alias the live dicts. -/
structure Snapshot where
  resources : Dict (Nat × Nat)
  processes : Dict SnapProcEntry
deriving DecidableEq

/-- `snapshot()` of state.py over the reference model. -/
def hSnapshot (h : HHeap) (s : HState) : Snapshot :=
  { resources := s.resources.map (fun e => (e.1, (e.2.total_units, e.2.available_units))),
    processes := s.processes.map (fun e =>
      (e.1, ⟨e.2.maxRef, e.2.allocRef, e.2.reqRef,
             totalNeed (derefProcess h e.1 e.2), e.2.priority⟩)) }

/-- What a reader of the snapshot sees once the dict addresses are followed:
the observable contents of the snapshot under a given heap. -/
def snapContent (h : HHeap) (sn : Snapshot) : Dict (Nat × Nat) × Dict Process :=
  (sn.resources, sn.processes.map (fun e =>
    (e.1, ⟨e.1, h.read e.2.maxRef, h.read e.2.allocRef, h.read e.2.reqRef, e.2.priority⟩)))

/-- `SystemState.request` over the reference model: the only write goes to
the live `requested` cell of the process. -/
def hRequest (h : HHeap) (s : HState) (process_id resource_id : String)
    (units : Nat) : (HHeap × HState) × Except String Bool :=
  match s.processes.get? process_id with
  | none => ((h, s), .error "process does not exist")
  | some hp =>
      if !s.resources.hasKey resource_id then
        ((h, s), .error "resource does not exist")
      else if units = 0 then
        ((h, s), .error "request units must be positive")
      else
        let process := derefProcess h process_id hp
        if (units : Int) > process.need resource_id then
          ((h, { s with event_log := s.event_log ++
                  [.requestRejected process_id resource_id units "exceeds_need"] }),
           .ok false)
        else
          let h1 := h.write hp.reqRef
            (process.requested.set resource_id
              (process.requested.getD resource_id 0 + units))
          ((h1, { s with event_log := s.event_log ++
                  [.requestRecorded process_id resource_id units] }),
           .ok true)

/-- `SystemState.allocate` over the reference model; writes go to the live
`allocated` and `requested` cells of the process, the resource delta stays
by value. -/
def hAllocate (h : HHeap) (s : HState) (process_id resource_id : String)
    (units : Nat) : (HHeap × HState) × Except String Bool :=
  match s.processes.get? process_id with
  | none => ((h, s), .error "process does not exist")
  | some hp =>
      match s.resources.get? resource_id with
      | none => ((h, s), .error "resource does not exist")
      | some resource =>
          if units = 0 then
            ((h, { s with event_log := s.event_log ++
                    [.allocationSkipped process_id resource_id 0] }), .ok true)
          else if units > resource.available_units then
            ((h, { s with event_log := s.event_log ++
                    [.allocationFailed process_id resource_id units
                      "insufficient_available"] }), .ok false)
          else
            let process := derefProcess h process_id hp
            let current_alloc := process.allocated.getD resource_id 0
            let max_claim := process.max_claims.getD resource_id 0
            if current_alloc + units > max_claim then
              ((h, { s with event_log := s.event_log ++
                      [.allocationFailed process_id resource_id units
                        "exceeds_max_claim"] }), .ok false)
            else
              let h1 := h.write hp.allocRef
                (process.allocated.set resource_id (current_alloc + units))
              let requested' :=
                if process.requested.hasKey resource_id then
                  let newReq := process.requested.getD resource_id 0 - units
                  if newReq = 0 then process.requested.erase resource_id
                  else process.requested.set resource_id newReq
                else process.requested
              let h2 := h1.write hp.reqRef requested'
              let resource' := { resource with
                available_units := resource.available_units - units }
              let s1 := { s with
                resources := s.resources.set resource_id resource',
                event_log := s.event_log ++
                  [.allocationDone process_id resource_id units] }
              ((h2, s1), .ok true)

/-- `copy.deepcopy` on the process map: every dict is copied into a fresh
cell appended to the heap. -/
def hCloneProcs (h : HHeap) : Dict HProcess → HHeap × Dict HProcess
  | [] => (h, [])
  | (pid, hp) :: rest =>
      let h1 := h ++ [h.read hp.maxRef, h.read hp.allocRef, h.read hp.reqRef]
      let hp' : HProcess := ⟨h.length, h.length + 1, h.length + 2, hp.priority⟩
      let (h2, rest') := hCloneProcs h1 rest
      (h2, (pid, hp') :: rest')

/-- `SystemState.clone` (`deepcopy(self)`) over the reference model. -/
def hClone (h : HHeap) (s : HState) : HHeap × HState :=
  ((hCloneProcs h s.processes).1,
   { s with processes := (hCloneProcs h s.processes).2 })

/-- Validation loop of `is_safe_state` over the request items on the clone:
fail-fast on `units > need` or `units > available`; `none` models the
`ValueError` that `get_available` raises for an unknown resource id. -/
def hCheckRequest (h : HHeap) (ts : HState) (proc : String) (hp : HProcess) :
    Dict Nat → Option Bool
  | [] => some true
  | (res_id, units) :: rest =>
      if (units : Int) > (derefProcess h proc hp).need res_id then some false
      else
        match ts.resources.get? res_id with
        | none => none
        | some r => if units > r.available_units then some false
                    else hCheckRequest h ts proc hp rest

/-- Tentative-allocation loop of `is_safe_state` on the clone. -/
def hApplyRequest (h : HHeap) (ts : HState) (proc : String) :
    Dict Nat → (HHeap × HState) × Bool
  | [] => ((h, ts), true)
  | (res_id, units) :: rest =>
      match hAllocate h ts proc res_id units with
      | ((h1, ts1), .ok true) => hApplyRequest h1 ts1 proc rest
      | ((h1, ts1), _) => ((h1, ts1), false)

/-- `is_safe_state` of banker.py over the reference model: clone, validate
and tentatively allocate on the clone, then run the (read-only) safety
search on the clone.  The first component of the result is the heap after
the call; the caller's `HState` is untouched by construction, and the
non-mutation theorem shows the heap cells it references are too; `.error`
models the `KeyError`/`ValueError` a bad argument raises after the clone. -/
def is_safe_state (h : HHeap) (s : HState) (proc : Option String)
    (request : Dict Nat) : HHeap × Except String (Bool × Option (List String)) :=
  match proc, request with
  | none, _ =>
      ((hClone h s).1, .ok (find_safe_sequence (toValue (hClone h s).1 (hClone h s).2)))
  | some _, [] =>
      ((hClone h s).1, .ok (find_safe_sequence (toValue (hClone h s).1 (hClone h s).2)))
  | some p, _ :: _ =>
      match (hClone h s).2.processes.get? p with
      | none => ((hClone h s).1, .error "KeyError")
      | some hp =>
          match hCheckRequest (hClone h s).1 (hClone h s).2 p hp request with
          | none => ((hClone h s).1, .error "ValueError: resource does not exist")
          | some false => ((hClone h s).1, .ok (false, none))
          | some true =>
              match hApplyRequest (hClone h s).1 (hClone h s).2 p request with
              | ((h2, ts2), true) => (h2, .ok (find_safe_sequence (toValue h2 ts2)))
              | ((h2, _), false) => (h2, .ok (false, none))

/-!
Lemmas about the dict embedding.
-/

namespace Dict

theorem get?_set_self {α : Type} (d : Dict α) (k : String) (v : α) :
    (d.set k v).get? k = some v := by
  induction d with
  | nil => simp [set, get?]
  | cons e rest ih =>
      obtain ⟨k0, v0⟩ := e
      by_cases hk : k0 = k
      · simp [set, get?, hk]
      · simp [set, get?, hk, ih]

theorem get?_set_ne {α : Type} (d : Dict α) {k k' : String} (v : α)
    (hne : k' ≠ k) : (d.set k v).get? k' = d.get? k' := by
  have hne' : ¬ (k = k') := fun h => hne h.symm
  induction d with
  | nil => simp [set, get?, hne']
  | cons e rest ih =>
      obtain ⟨k0, v0⟩ := e
      by_cases hk : k0 = k
      · subst hk
        have : ¬ (k0 = k') := hne'
        simp [set, get?, this]
      · by_cases hk' : k0 = k'
        · simp [set, get?, hk, hk', hne]
        · simp [set, get?, hk, hk', ih]

theorem getD_set_self {α : Type} (d : Dict α) (k : String) (v v₀ : α) :
    (d.set k v).getD k v₀ = v := by
  simp [getD, get?_set_self]

theorem getD_set_ne {α : Type} (d : Dict α) {k k' : String} (v : α) (v₀ : α)
    (hne : k' ≠ k) : (d.set k v).getD k' v₀ = d.getD k' v₀ := by
  simp [getD, get?_set_ne d v hne]

theorem get?_erase_self {α : Type} (d : Dict α) (k : String) :
    (d.erase k).get? k = none := by
  induction d with
  | nil => simp [erase, get?]
  | cons e rest ih =>
      obtain ⟨k0, v0⟩ := e
      by_cases hk : k0 = k
      · simpa [erase, get?, hk] using ih
      · simpa [erase, get?, hk] using ih

theorem get?_erase_ne {α : Type} (d : Dict α) {k k' : String}
    (hne : k' ≠ k) : (d.erase k).get? k' = d.get? k' := by
  induction d with
  | nil => simp [erase, get?]
  | cons e rest ih =>
      obtain ⟨k0, v0⟩ := e
      by_cases hk : k0 = k
      · subst hk
        have hne2 : ¬ (k0 = k') := fun h => hne h.symm
        simpa [erase, get?, hne2] using ih
      · by_cases hk' : k0 = k'
        · simp [erase, get?, hk, hk', hne]
        · simpa [erase, get?, hk, hk'] using ih

theorem getD_erase_self {α : Type} (d : Dict α) (k : String) (v₀ : α) :
    (d.erase k).getD k v₀ = v₀ := by
  simp [getD, get?_erase_self]

theorem getD_erase_ne {α : Type} (d : Dict α) {k k' : String} (v₀ : α)
    (hne : k' ≠ k) : (d.erase k).getD k' v₀ = d.getD k' v₀ := by
  simp [getD, get?_erase_ne d hne]

theorem get?_isSome_iff_mem_keys {α : Type} (d : Dict α) (k : String) :
    (d.get? k).isSome = true ↔ k ∈ d.keys := by
  induction d with
  | nil => simp [get?, keys]
  | cons e rest ih =>
      obtain ⟨k0, v0⟩ := e
      by_cases hk : k0 = k
      · simp [get?, keys, hk]
      · have : ¬ (k = k0) := fun h => hk h.symm
        simp [get?, keys, hk, this, ih]

theorem get?_eq_none_of_not_mem_keys {α : Type} {d : Dict α} {k : String}
    (h : k ∉ d.keys) : d.get? k = none := by
  have h2 := (get?_isSome_iff_mem_keys d k).not.mpr h
  cases hg : d.get? k with
  | none => rfl
  | some v => simp [hg] at h2

theorem mem_of_get?_eq_some {α : Type} {d : Dict α} {k : String} {v : α}
    (h : d.get? k = some v) : (k, v) ∈ d := by
  induction d with
  | nil => simp [get?] at h
  | cons e rest ih =>
      obtain ⟨k0, v0⟩ := e
      by_cases hk : k0 = k
      · subst hk
        simp [get?] at h
        subst h
        exact List.mem_cons_self _ _
      · simp [get?, hk] at h
        exact List.mem_cons_of_mem _ (ih h)

theorem mem_keys_of_mem {α : Type} {d : Dict α} {k : String} {v : α}
    (h : (k, v) ∈ d) : k ∈ d.keys :=
  List.mem_map.mpr ⟨(k, v), h, rfl⟩

theorem get?_eq_some_of_mem {α : Type} {d : Dict α} {k : String} {v : α}
    (hnd : d.keys.Nodup) (h : (k, v) ∈ d) : d.get? k = some v := by
  induction d with
  | nil => simp at h
  | cons e rest ih =>
      obtain ⟨k0, v0⟩ := e
      simp only [keys, List.map_cons, List.nodup_cons] at hnd
      rcases List.mem_cons.mp h with h1 | h1
      · injection h1 with hk hv
        subst hk
        simp [get?, hv]
      · have hk : ¬ (k0 = k) := by
          intro hek
          exact hnd.1 (hek ▸ mem_keys_of_mem h1)
        simp only [get?, if_neg hk]
        exact ih hnd.2 h1

theorem keys_set_of_hasKey {α : Type} (d : Dict α) (k : String) (v : α)
    (h : d.hasKey k = true) : (d.set k v).keys = d.keys := by
  induction d with
  | nil => simp [hasKey, get?] at h
  | cons e rest ih =>
      obtain ⟨k0, v0⟩ := e
      by_cases hk : k0 = k
      · simp [set, keys, hk]
      · simp only [hasKey, get?, if_neg hk] at h
        simp [set, keys, hk]
        exact ih h

theorem keys_set_of_not_hasKey {α : Type} (d : Dict α) (k : String) (v : α)
    (h : d.hasKey k = false) : (d.set k v).keys = d.keys ++ [k] := by
  induction d with
  | nil => simp [set, keys]
  | cons e rest ih =>
      obtain ⟨k0, v0⟩ := e
      by_cases hk : k0 = k
      · simp [hasKey, get?, hk] at h
      · simp only [hasKey, get?, if_neg hk] at h
        simp [set, keys, hk]
        exact ih h

theorem keys_erase {α : Type} (d : Dict α) (k : String) :
    (d.erase k).keys = d.keys.filter (fun x => x ≠ k) := by
  induction d with
  | nil => simp [erase, keys]
  | cons e rest ih =>
      obtain ⟨k0, v0⟩ := e
      by_cases hk : k0 = k
      · simpa [erase, keys, hk] using ih
      · simpa [erase, keys, hk] using ih

theorem hasKey_iff_mem_keys {α : Type} (d : Dict α) (k : String) :
    d.hasKey k = true ↔ k ∈ d.keys := by
  simpa [hasKey] using get?_isSome_iff_mem_keys d k

theorem nodup_keys_set {α : Type} (d : Dict α) (k : String) (v : α)
    (hnd : d.keys.Nodup) : (d.set k v).keys.Nodup := by
  cases hh : d.hasKey k with
  | true => rw [keys_set_of_hasKey d k v hh]; exact hnd
  | false =>
      rw [keys_set_of_not_hasKey d k v hh]
      refine List.Nodup.append hnd (by simp) ?_
      intro a ha hb
      simp only [List.mem_singleton] at hb
      subst hb
      have := (hasKey_iff_mem_keys d a).mpr ha
      rw [hh] at this
      exact Bool.false_ne_true this

theorem nodup_keys_erase {α : Type} (d : Dict α) (k : String)
    (hnd : d.keys.Nodup) : (d.erase k).keys.Nodup := by
  rw [keys_erase]
  exact hnd.filter _

theorem mem_set_iff {α : Type} {d : Dict α} (hnd : d.keys.Nodup)
    (k : String) (v : α) (a : String) (b : α) :
    (a, b) ∈ d.set k v ↔ ((a = k ∧ b = v) ∨ ((a, b) ∈ d ∧ a ≠ k)) := by
  induction d with
  | nil =>
      constructor
      · intro h
        simp [set] at h
        exact Or.inl ⟨h.1, h.2⟩
      · intro h
        rcases h with ⟨h1, h2⟩ | ⟨h1, _⟩
        · simp [set, h1, h2]
        · simp at h1
  | cons e rest ih =>
      obtain ⟨k0, v0⟩ := e
      simp only [keys, List.map_cons, List.nodup_cons] at hnd
      by_cases hk : k0 = k
      · subst hk
        simp only [set, if_pos rfl]
        constructor
        · intro h
          rcases List.mem_cons.mp h with h1 | h1
          · injection h1 with ha hb
            exact Or.inl ⟨ha, hb⟩
          · refine Or.inr ⟨List.mem_cons_of_mem _ h1, ?_⟩
            intro hak
            exact hnd.1 (hak ▸ mem_keys_of_mem h1)
        · intro h
          rcases h with ⟨h1, h2⟩ | ⟨h1, h2⟩
          · subst h1; subst h2; exact List.mem_cons_self _ _
          · rcases List.mem_cons.mp h1 with h3 | h3
            · have := congrArg Prod.fst h3
              simp at this
              exact absurd this h2
            · exact List.mem_cons_of_mem _ h3
      · simp only [set, if_neg hk]
        constructor
        · intro h
          rcases List.mem_cons.mp h with h1 | h1
          · injection h1 with ha hb
            subst ha; subst hb
            exact Or.inr ⟨List.mem_cons_self _ _, hk⟩
          · rcases (ih hnd.2).mp h1 with h2 | ⟨h2, h3⟩
            · exact Or.inl h2
            · exact Or.inr ⟨List.mem_cons_of_mem _ h2, h3⟩
        · intro h
          rcases h with ⟨h1, h2⟩ | ⟨h1, h2⟩
          · exact List.mem_cons_of_mem _ ((ih hnd.2).mpr (Or.inl ⟨h1, h2⟩))
          · rcases List.mem_cons.mp h1 with h3 | h3
            · exact h3 ▸ List.mem_cons_self _ _
            · exact List.mem_cons_of_mem _ ((ih hnd.2).mpr (Or.inr ⟨h3, h2⟩))

end Dict

/-!
Invariants of reachable states.

`allocSum s rid` is the total of `allocated.get(rid, 0)` over all processes;
conservation says `available + allocSum = total` for every resource.  `WF`
bundles the structural facts that hold for every state built through the
API: unique dict keys, positive allocation entries, allocation keys naming
existing resources, the claim bound and conservation.
-/

/-- Sum of `allocated.get(rid, 0)` over all processes, in map order. -/
def allocSum (s : SystemState) (rid : String) : Nat :=
  (s.processes.map (fun pe => pe.2.allocated.getD rid 0)).sum

/-- Conservation invariant of the spec: for every resource,
`available + Σ_p allocated(p, r) = total`. -/
def Conservation (s : SystemState) : Prop :=
  ∀ rid r, (rid, r) ∈ s.resources → r.available_units + allocSum s rid = r.total_units

/-- Claim-bound invariant: `allocated(p, r) ≤ max_claims(p, r)` everywhere. -/
def ClaimBound (s : SystemState) : Prop :=
  ∀ pid p, (pid, p) ∈ s.processes →
    ∀ rid, p.allocated.getD rid 0 ≤ p.max_claims.getD rid 0

/-- Structural and semantic invariants maintained by every API call. -/
structure WF (s : SystemState) : Prop where
  resNodup : s.resources.keys.Nodup
  procNodup : s.processes.keys.Nodup
  allocNodup : ∀ pid p, (pid, p) ∈ s.processes → p.allocated.keys.Nodup
  reqNodup : ∀ pid p, (pid, p) ∈ s.processes → p.requested.keys.Nodup
  allocPos : ∀ pid p, (pid, p) ∈ s.processes →
    ∀ rid u, (rid, u) ∈ p.allocated → 0 < u
  allocKeysExist : ∀ pid p, (pid, p) ∈ s.processes →
    ∀ rid, rid ∈ p.allocated.keys → s.resources.hasKey rid = true
  claimBound : ClaimBound s
  conservation : Conservation s

theorem wf_initState : WF initState := by
  refine ⟨?_, ?_, ?_, ?_, ?_, ?_, ?_, ?_⟩ <;>
    simp [initState, Conservation, ClaimBound, Dict.keys]

/-- Sum over a map after replacing the (unique) entry at `k`: stated without
subtraction so that `Nat` arithmetic stays exact. -/
theorem sum_map_set {β : Type} (d : Dict β) (f : String × β → Nat)
    (k : String) (v v' : β) (hnd : d.keys.Nodup) (hmem : (k, v) ∈ d) :
    ((d.set k v').map f).sum + f (k, v) = (d.map f).sum + f (k, v') := by
  induction d with
  | nil => simp at hmem
  | cons e rest ih =>
      obtain ⟨k0, v0⟩ := e
      simp only [Dict.keys, List.map_cons, List.nodup_cons] at hnd
      rcases List.mem_cons.mp hmem with h1 | h1
      · injection h1 with hk hv
        subst hk; subst hv
        simp [Dict.set]
        omega
      · have hk : ¬ (k0 = k) := by
          intro hek
          exact hnd.1 (hek ▸ Dict.mem_keys_of_mem h1)
        simp only [Dict.set, if_neg hk, List.map_cons, List.sum_cons]
        have := ih hnd.2 h1
        omega

/-- Sum over a map after inserting a fresh key. -/
theorem sum_map_set_new {β : Type} (d : Dict β) (f : String × β → Nat)
    (k : String) (v' : β) (h : d.hasKey k = false) :
    ((d.set k v').map f).sum = (d.map f).sum + f (k, v') := by
  induction d with
  | nil => simp [Dict.set]
  | cons e rest ih =>
      obtain ⟨k0, v0⟩ := e
      by_cases hk : k0 = k
      · simp [Dict.hasKey, Dict.get?, hk] at h
      · simp only [Dict.hasKey, Dict.get?, if_neg hk] at h
        simp only [Dict.set, if_neg hk, List.map_cons, List.sum_cons, ih h]
        omega

/-- Erasing the head key of a dict whose tail does not repeat it. -/
theorem erase_cons_self_of_not_mem {β : Type} (k0 : String) (v0 : β)
    (rest : Dict β) (h : k0 ∉ rest.keys) :
    Dict.erase ((k0, v0) :: rest) k0 = rest := by
  have h1 : Dict.erase ((k0, v0) :: rest) k0 = Dict.erase rest k0 := by
    simp [Dict.erase, List.filter_cons]
  rw [h1]
  refine List.filter_eq_self.mpr ?_
  intro e he
  have hne : e.1 ≠ k0 := fun hek => h (hek ▸ Dict.mem_keys_of_mem he)
  simp [hne]

/-- Sum over a map after erasing the (unique) entry at `k`. -/
theorem sum_map_erase {β : Type} (d : Dict β) (f : String × β → Nat)
    (k : String) (v : β) (hnd : d.keys.Nodup) (hmem : (k, v) ∈ d) :
    ((d.erase k).map f).sum + f (k, v) = (d.map f).sum := by
  induction d with
  | nil => simp at hmem
  | cons e rest ih =>
      obtain ⟨k0, v0⟩ := e
      simp only [Dict.keys, List.map_cons, List.nodup_cons] at hnd
      rcases List.mem_cons.mp hmem with h1 | h1
      · injection h1 with hk hv
        subst hk
        subst hv
        rw [erase_cons_self_of_not_mem _ _ _ hnd.1]
        simp only [List.map_cons, List.sum_cons]
        omega
      · have hk : ¬ (k0 = k) := by
          intro hek
          exact hnd.1 (hek ▸ Dict.mem_keys_of_mem h1)
        have hstep : Dict.erase ((k0, v0) :: rest) k = (k0, v0) :: Dict.erase rest k := by
          simp [Dict.erase, List.filter_cons, hk]
        rw [hstep]
        simp only [List.map_cons, List.sum_cons]
        have := ih hnd.2 h1
        omega

/-!
Preservation of `WF` by every API call.
-/

theorem Dict.getD_zero_of_not_hasKey {d : Dict Nat} {k : String}
    (h : d.hasKey k = false) : d.getD k 0 = 0 := by
  have : d.get? k = none := by
    cases hg : d.get? k with
    | none => rfl
    | some v => simp [Dict.hasKey, hg] at h
  simp [Dict.getD, this]

theorem Dict.hasKey_set_of_hasKey {α : Type} (d : Dict α) (k k' : String) (v : α)
    (h : d.hasKey k' = true) : (d.set k v).hasKey k' = true := by
  by_cases hk : k' = k
  · subst hk
    simp [Dict.hasKey, Dict.get?_set_self]
  · simpa [Dict.hasKey, Dict.get?_set_ne d v hk] using h

theorem allocSum_congr_processes (s s' : SystemState)
    (h : s'.processes = s.processes) (rid : String) :
    allocSum s' rid = allocSum s rid := by
  simp [allocSum, h]

theorem wf_logEvent (s : SystemState) (e : LogEntry) (h : WF s) :
    WF (s.logEvent e) :=
  ⟨h.resNodup, h.procNodup, h.allocNodup, h.reqNodup, h.allocPos,
   h.allocKeysExist, h.claimBound, h.conservation⟩

theorem allocSum_eq_zero_of_no_key (s : SystemState) (rid : String)
    (h : ∀ pid p, (pid, p) ∈ s.processes → p.allocated.getD rid 0 = 0) :
    allocSum s rid = 0 := by
  refine List.sum_eq_zero ?_
  intro x hx
  rcases List.mem_map.mp hx with ⟨pe, hpe, hfx⟩
  obtain ⟨pid, p⟩ := pe
  rw [← hfx]
  exact h pid p hpe

theorem wf_add_resource (s : SystemState) (rid : String) (u : Nat)
    (h : WF s) : WF (s.add_resource rid u).1 := by
  by_cases hk : s.resources.hasKey rid = true
  · simpa [SystemState.add_resource, hk] using h
  · have hk' : s.resources.hasKey rid = false := by
      simpa using hk
    simp only [SystemState.add_resource, hk', Bool.false_eq_true, if_false]
    refine wf_logEvent _ _ ?_
    refine ⟨?_, h.procNodup, h.allocNodup, h.reqNodup, h.allocPos, ?_, h.claimBound, ?_⟩
    · exact Dict.nodup_keys_set _ _ _ h.resNodup
    · intro pid p hp rid' hr
      exact Dict.hasKey_set_of_hasKey _ _ _ _ (h.allocKeysExist pid p hp rid' hr)
    · intro rid' r' hmem
      rcases (Dict.mem_set_iff h.resNodup rid ⟨rid, u, u⟩ rid' r').mp hmem with
        ⟨he1, he2⟩ | ⟨hmem', hne⟩
      · have hkr : s.resources.hasKey rid' = false := by rw [he1]; exact hk'
        have hz : allocSum { s with resources := s.resources.set rid ⟨rid, u, u⟩ } rid' = 0 := by
          refine allocSum_eq_zero_of_no_key _ _ ?_
          intro pid p hp
          refine Dict.getD_zero_of_not_hasKey ?_
          cases hhk : p.allocated.hasKey rid' with
          | false => rfl
          | true =>
              have h2 := h.allocKeysExist pid p hp rid'
                ((Dict.hasKey_iff_mem_keys _ _).mp hhk)
              rw [hkr] at h2
              exact absurd h2 (by simp)
        rw [he2, hz]
        rfl
      · have := h.conservation rid' r' hmem'
        have hsum : allocSum { s with resources := s.resources.set rid ⟨rid, u, u⟩ } rid'
            = allocSum s rid' := rfl
        simpa [hsum] using this

theorem allocSum_set_process (s : SystemState) (pid : String)
    (proc proc' : Process) (hnd : s.processes.keys.Nodup)
    (hmem : (pid, proc) ∈ s.processes) (rid : String) :
    allocSum { s with processes := s.processes.set pid proc' } rid
      + proc.allocated.getD rid 0
    = allocSum s rid + proc'.allocated.getD rid 0 :=
  sum_map_set s.processes (fun pe => pe.2.allocated.getD rid 0) pid proc proc' hnd hmem

theorem wf_add_process (s : SystemState) (pid : String) (claims : Dict Nat)
    (prio : Int) (h : WF s) : WF (s.add_process pid claims prio).1 := by
  by_cases hk : s.processes.hasKey pid = true
  · simpa [SystemState.add_process, hk] using h
  · have hk' : s.processes.hasKey pid = false := by simpa using hk
    cases hce : claimsError s claims with
    | some e => simpa [SystemState.add_process, hk', hce] using h
    | none =>
        simp only [SystemState.add_process, hk', Bool.false_eq_true, if_false, hce]
        refine wf_logEvent _ _ ?_
        have hmemiff := Dict.mem_set_iff (d := s.processes) h.procNodup pid
          ⟨pid, claims, [], [], prio⟩
        refine ⟨h.resNodup, Dict.nodup_keys_set _ _ _ h.procNodup, ?_, ?_, ?_, ?_, ?_, ?_⟩
        · intro pid' p' hp
          rcases (hmemiff pid' p').mp hp with ⟨_, he2⟩ | ⟨hold, _⟩
          · subst he2; exact List.nodup_nil
          · exact h.allocNodup pid' p' hold
        · intro pid' p' hp
          rcases (hmemiff pid' p').mp hp with ⟨_, he2⟩ | ⟨hold, _⟩
          · subst he2; exact List.nodup_nil
          · exact h.reqNodup pid' p' hold
        · intro pid' p' hp rid u hmem
          rcases (hmemiff pid' p').mp hp with ⟨_, he2⟩ | ⟨hold, _⟩
          · subst he2; simp at hmem
          · exact h.allocPos pid' p' hold rid u hmem
        · intro pid' p' hp rid hr
          rcases (hmemiff pid' p').mp hp with ⟨_, he2⟩ | ⟨hold, _⟩
          · subst he2; simp [Dict.keys] at hr
          · exact h.allocKeysExist pid' p' hold rid hr
        · intro pid' p' hp rid
          rcases (hmemiff pid' p').mp hp with ⟨_, he2⟩ | ⟨hold, _⟩
          · subst he2; simp [Dict.getD, Dict.get?]
          · exact h.claimBound pid' p' hold rid
        · intro rid r hmem
          have hsum : allocSum { s with
              processes := s.processes.set pid ⟨pid, claims, [], [], prio⟩ } rid
              = allocSum s rid := by
            have := sum_map_set_new s.processes
              (fun pe => pe.2.allocated.getD rid 0) pid
              ⟨pid, claims, [], [], prio⟩ hk'
            simpa [allocSum, Dict.getD, Dict.get?] using this
          rw [hsum]
          exact h.conservation rid r hmem

theorem wf_request (s : SystemState) (pid rid : String) (u : Nat)
    (h : WF s) : WF (s.request pid rid u).1 := by
  cases hp : s.processes.get? pid with
  | none => simpa [SystemState.request, hp] using h
  | some process =>
      by_cases hr : s.resources.hasKey rid = true
      · by_cases hu : u = 0
        · simpa [SystemState.request, hp, hr, hu] using h
        · by_cases hneed : (u : Int) > process.need rid
          · simpa [SystemState.request, hp, hr, hu, hneed] using wf_logEvent s _ h
          · have hmem := Dict.mem_of_get?_eq_some hp
            simp only [SystemState.request, hp, hr, hu, hneed, Bool.not_true,
              Bool.false_eq_true, if_false, if_neg]
            refine wf_logEvent _ _ ?_
            set process' : Process := { process with requested := process.requested.set rid (process.requested.getD rid 0 + u) } with hdefp
            have hmemiff := Dict.mem_set_iff (d := s.processes) h.procNodup pid process'
            refine ⟨h.resNodup, ?_, ?_, ?_, ?_, ?_, ?_, ?_⟩
            · exact Dict.nodup_keys_set _ _ _ h.procNodup
            · intro pid' p' hp'
              rcases (hmemiff pid' p').mp hp' with ⟨_, he2⟩ | ⟨hold, _⟩
              · subst he2; exact h.allocNodup pid process hmem
              · exact h.allocNodup pid' p' hold
            · intro pid' p' hp'
              rcases (hmemiff pid' p').mp hp' with ⟨_, he2⟩ | ⟨hold, _⟩
              · subst he2
                exact Dict.nodup_keys_set _ _ _ (h.reqNodup pid process hmem)
              · exact h.reqNodup pid' p' hold
            · intro pid' p' hp' rid' u' hmem'
              rcases (hmemiff pid' p').mp hp' with ⟨_, he2⟩ | ⟨hold, _⟩
              · subst he2; exact h.allocPos pid process hmem rid' u' hmem'
              · exact h.allocPos pid' p' hold rid' u' hmem'
            · intro pid' p' hp' rid' hr'
              rcases (hmemiff pid' p').mp hp' with ⟨_, he2⟩ | ⟨hold, _⟩
              · subst he2; exact h.allocKeysExist pid process hmem rid' hr'
              · exact h.allocKeysExist pid' p' hold rid' hr'
            · intro pid' p' hp' rid'
              rcases (hmemiff pid' p').mp hp' with ⟨_, he2⟩ | ⟨hold, _⟩
              · subst he2; exact h.claimBound pid process hmem rid'
              · exact h.claimBound pid' p' hold rid'
            · intro rid' r' hmem'
              have hsum := allocSum_set_process s pid process process'
                h.procNodup hmem rid'
              have hcons := h.conservation rid' r' hmem'
              have : allocSum { s with processes := s.processes.set pid process' } rid'
                  = allocSum s rid' := by
                have hpp : process'.allocated = process.allocated := rfl
                rw [hpp] at hsum
                omega
              rw [this]
              exact hcons
      · have hr2 : s.resources.hasKey rid = false := by simpa using hr
        simpa [SystemState.request, hp, hr2] using h

theorem wf_allocate (s : SystemState) (pid rid : String) (u : Nat)
    (h : WF s) : WF (s.allocate pid rid u).1 := by
  cases hp : s.processes.get? pid with
  | none => simpa [SystemState.allocate, hp] using h
  | some process =>
  cases hr : s.resources.get? rid with
  | none => simpa [SystemState.allocate, hp, hr] using h
  | some resource =>
  by_cases hu : u = 0
  · simpa [SystemState.allocate, hp, hr, hu] using wf_logEvent s _ h
  · by_cases hav : u > resource.available_units
    · simpa [SystemState.allocate, hp, hr, hu, hav] using wf_logEvent s _ h
    · by_cases hmax : process.allocated.getD rid 0 + u > process.max_claims.getD rid 0
      · simpa [SystemState.allocate, hp, hr, hu, hav, hmax] using wf_logEvent s _ h
      · have hmem := Dict.mem_of_get?_eq_some hp
        have hrmem := Dict.mem_of_get?_eq_some hr
        have halnd := h.allocNodup pid process hmem
        have hrqnd := h.reqNodup pid process hmem
        simp only [SystemState.allocate, hp, hr, hu, hav, hmax, if_false, if_neg,
          Bool.false_eq_true]
        refine wf_logEvent _ _ ?_
        have hmemiff := Dict.mem_set_iff (d := s.processes) h.procNodup pid
          { process with
            allocated := process.allocated.set rid (process.allocated.getD rid 0 + u),
            requested :=
              if process.requested.hasKey rid then
                if process.requested.getD rid 0 - u = 0 then process.requested.erase rid
                else process.requested.set rid (process.requested.getD rid 0 - u)
              else process.requested }
        have hresiff := Dict.mem_set_iff (d := s.resources) h.resNodup rid
          { resource with available_units := resource.available_units - u }
        refine ⟨?_, ?_, ?_, ?_, ?_, ?_, ?_, ?_⟩
        · exact Dict.nodup_keys_set _ _ _ h.resNodup
        · exact Dict.nodup_keys_set _ _ _ h.procNodup
        · intro pid' p' hp'
          rcases (hmemiff pid' p').mp hp' with ⟨_, he2⟩ | ⟨hold, _⟩
          · subst he2
            exact Dict.nodup_keys_set _ _ _ halnd
          · exact h.allocNodup pid' p' hold
        · intro pid' p' hp'
          rcases (hmemiff pid' p').mp hp' with ⟨_, he2⟩ | ⟨hold, _⟩
          · subst he2
            by_cases h1 : process.requested.hasKey rid = true
            · by_cases h2 : process.requested.getD rid 0 - u = 0
              · simpa [h1, h2] using Dict.nodup_keys_erase _ _ hrqnd
              · simpa [h1, h2] using Dict.nodup_keys_set _ _ _ hrqnd
            · have h1' : process.requested.hasKey rid = false := by simpa using h1
              simpa [h1'] using hrqnd
          · exact h.reqNodup pid' p' hold
        · intro pid' p' hp' rid' u' hmem'
          rcases (hmemiff pid' p').mp hp' with ⟨_, he2⟩ | ⟨hold, _⟩
          · subst he2
            simp only at hmem'
            rcases (Dict.mem_set_iff halnd rid
                (process.allocated.getD rid 0 + u) rid' u').mp hmem' with
              ⟨_, hv⟩ | ⟨holda, _⟩
            · subst hv
              omega
            · exact h.allocPos pid process hmem rid' u' holda
          · exact h.allocPos pid' p' hold rid' u' hmem'
        · intro pid' p' hp' rid' hk'
          have htarget : ∀ x : String, s.resources.hasKey x = true →
              (s.resources.set rid { resource with
                available_units := resource.available_units - u }).hasKey x = true := by
            intro x hx
            exact Dict.hasKey_set_of_hasKey _ _ _ _ hx
          rcases (hmemiff pid' p').mp hp' with ⟨_, he2⟩ | ⟨hold, _⟩
          · subst he2
            simp only at hk'
            by_cases hrid' : rid' = rid
            · subst hrid'
              refine Dict.hasKey_set_of_hasKey _ _ _ _ ?_
              simp [Dict.hasKey, hr]
            · cases hhk : process.allocated.hasKey rid with
              | true =>
                  rw [Dict.keys_set_of_hasKey _ _ _ hhk] at hk'
                  exact htarget rid' (h.allocKeysExist pid process hmem rid' hk')
              | false =>
                  rw [Dict.keys_set_of_not_hasKey _ _ _ hhk] at hk'
                  rcases List.mem_append.mp hk' with hk2 | hk2
                  · exact htarget rid' (h.allocKeysExist pid process hmem rid' hk2)
                  · simp at hk2
                    exact absurd hk2 hrid'
          · exact htarget rid' (h.allocKeysExist pid' p' hold rid' hk')
        · intro pid' p' hp' rid'
          rcases (hmemiff pid' p').mp hp' with ⟨_, he2⟩ | ⟨hold, _⟩
          · subst he2
            simp only
            by_cases hrid' : rid' = rid
            · subst hrid'
              rw [Dict.getD_set_self]
              omega
            · rw [Dict.getD_set_ne _ _ _ hrid']
              exact h.claimBound pid process hmem rid'
          · exact h.claimBound pid' p' hold rid'
        · intro rid' r' hmem'
          have hsum := sum_map_set s.processes
            (fun pe => pe.2.allocated.getD rid' 0) pid process
            { process with
              allocated := process.allocated.set rid (process.allocated.getD rid 0 + u),
              requested :=
                if process.requested.hasKey rid then
                  if process.requested.getD rid 0 - u = 0 then process.requested.erase rid
                  else process.requested.set rid (process.requested.getD rid 0 - u)
                else process.requested }
            h.procNodup hmem
          simp only at hsum
          rcases (hresiff rid' r').mp hmem' with ⟨he1, he2⟩ | ⟨holdr, hner⟩
          · have hcons := h.conservation rid resource hrmem
            subst he2
            have hsum2 := hsum
            rw [he1] at hsum2 ⊢
            rw [Dict.getD_set_self] at hsum2
            have : allocSum { s with
                resources := s.resources.set rid
                  { resource with available_units := resource.available_units - u },
                processes := s.processes.set pid
                  { process with
                    allocated := process.allocated.set rid (process.allocated.getD rid 0 + u),
                    requested :=
                      if process.requested.hasKey rid then
                        if process.requested.getD rid 0 - u = 0 then
                          process.requested.erase rid
                        else process.requested.set rid (process.requested.getD rid 0 - u)
                      else process.requested } } rid
                = allocSum s rid + u := by
              simp only [allocSum] at hsum2 ⊢
              omega
            rw [this]
            simp only [allocSum] at hcons ⊢
            omega
          · have hcons := h.conservation rid' r' holdr
            have hner' : rid' ≠ rid := hner
            rw [Dict.getD_set_ne _ _ _ hner'] at hsum
            have : allocSum { s with
                resources := s.resources.set rid
                  { resource with available_units := resource.available_units - u },
                processes := s.processes.set pid
                  { process with
                    allocated := process.allocated.set rid (process.allocated.getD rid 0 + u),
                    requested :=
                      if process.requested.hasKey rid then
                        if process.requested.getD rid 0 - u = 0 then
                          process.requested.erase rid
                        else process.requested.set rid (process.requested.getD rid 0 - u)
                      else process.requested } } rid'
                = allocSum s rid' := by
              simp only [allocSum] at hsum ⊢
              omega
            rw [this]
            exact hcons

theorem wf_release (s : SystemState) (pid rid : String) (u : Nat)
    (h : WF s) : WF (s.release pid rid u).1 := by
  cases hp : s.processes.get? pid with
  | none => simpa [SystemState.release, hp] using h
  | some process =>
  cases hr : s.resources.get? rid with
  | none => simpa [SystemState.release, hp, hr] using h
  | some resource =>
  by_cases hu : u = 0
  · simpa [SystemState.release, hp, hr, hu] using h
  · by_cases hgt : u > process.allocated.getD rid 0
    · simpa [SystemState.release, hp, hr, hu, hgt] using wf_logEvent s _ h
    · have hmem := Dict.mem_of_get?_eq_some hp
      have hrmem := Dict.mem_of_get?_eq_some hr
      have halnd := h.allocNodup pid process hmem
      simp only [SystemState.release, hp, hr, hu, hgt, if_false, if_neg,
        Bool.false_eq_true]
      refine wf_logEvent _ _ ?_
      have hmemiff := Dict.mem_set_iff (d := s.processes) h.procNodup pid
        { process with allocated :=
            if process.allocated.getD rid 0 - u = 0 then process.allocated.erase rid
            else process.allocated.set rid (process.allocated.getD rid 0 - u) }
      have hresiff := Dict.mem_set_iff (d := s.resources) h.resNodup rid
        { resource with available_units := resource.available_units + u }
      have hgalloc : ∀ rid', (if process.allocated.getD rid 0 - u = 0 then
            process.allocated.erase rid
          else process.allocated.set rid
            (process.allocated.getD rid 0 - u)).getD rid' 0 =
          if rid' = rid then process.allocated.getD rid 0 - u
          else process.allocated.getD rid' 0 := by
        intro rid'
        by_cases hzero : process.allocated.getD rid 0 - u = 0
        · by_cases hrid' : rid' = rid
          · subst hrid'
            simp [hzero, Dict.getD_erase_self]
          · simp [hzero, hrid', Dict.getD_erase_ne _ _ hrid']
        · by_cases hrid' : rid' = rid
          · subst hrid'
            simp [hzero, Dict.getD_set_self]
          · simp [hzero, hrid', Dict.getD_set_ne _ _ _ hrid']
      refine ⟨?_, ?_, ?_, ?_, ?_, ?_, ?_, ?_⟩
      · exact Dict.nodup_keys_set _ _ _ h.resNodup
      · exact Dict.nodup_keys_set _ _ _ h.procNodup
      · intro pid' p' hp'
        rcases (hmemiff pid' p').mp hp' with ⟨_, he2⟩ | ⟨hold, _⟩
        · subst he2
          by_cases hzero : process.allocated.getD rid 0 - u = 0
          · simpa [hzero] using Dict.nodup_keys_erase _ _ halnd
          · simpa [hzero] using Dict.nodup_keys_set _ _ _ halnd
        · exact h.allocNodup pid' p' hold
      · intro pid' p' hp'
        rcases (hmemiff pid' p').mp hp' with ⟨_, he2⟩ | ⟨hold, _⟩
        · subst he2
          exact h.reqNodup pid process hmem
        · exact h.reqNodup pid' p' hold
      · intro pid' p' hp' rid' u' hmem'
        rcases (hmemiff pid' p').mp hp' with ⟨_, he2⟩ | ⟨hold, _⟩
        · subst he2
          simp only at hmem'
          by_cases hzero : process.allocated.getD rid 0 - u = 0
          · rw [if_pos hzero] at hmem'
            exact h.allocPos pid process hmem rid' u'
              (List.mem_of_mem_filter hmem')
          · rw [if_neg hzero] at hmem'
            rcases (Dict.mem_set_iff halnd rid
                (process.allocated.getD rid 0 - u) rid' u').mp hmem' with
              ⟨_, hv⟩ | ⟨holda, _⟩
            · subst hv
              omega
            · exact h.allocPos pid process hmem rid' u' holda
        · exact h.allocPos pid' p' hold rid' u' hmem'
      · intro pid' p' hp' rid' hk'
        have htarget : ∀ x : String, s.resources.hasKey x = true →
            (s.resources.set rid { resource with
              available_units := resource.available_units + u }).hasKey x = true := by
          intro x hx
          exact Dict.hasKey_set_of_hasKey _ _ _ _ hx
        rcases (hmemiff pid' p').mp hp' with ⟨_, he2⟩ | ⟨hold, _⟩
        · subst he2
          simp only at hk'
          by_cases hzero : process.allocated.getD rid 0 - u = 0
          · rw [if_pos hzero, Dict.keys_erase] at hk'
            exact htarget rid' (h.allocKeysExist pid process hmem rid'
              (List.mem_of_mem_filter hk'))
          · rw [if_neg hzero] at hk'
            have hcur : process.allocated.getD rid 0 ≠ 0 := by omega
            have hhk : process.allocated.hasKey rid = true := by
              cases hhk2 : process.allocated.hasKey rid with
              | true => rfl
              | false => exact absurd (Dict.getD_zero_of_not_hasKey hhk2) hcur
            rw [Dict.keys_set_of_hasKey _ _ _ hhk] at hk'
            exact htarget rid' (h.allocKeysExist pid process hmem rid' hk')
        · exact htarget rid' (h.allocKeysExist pid' p' hold rid' hk')
      · intro pid' p' hp' rid'
        rcases (hmemiff pid' p').mp hp' with ⟨_, he2⟩ | ⟨hold, _⟩
        · subst he2
          simp only [hgalloc rid']
          by_cases hrid' : rid' = rid
          · have := h.claimBound pid process hmem rid
            simp only [if_pos hrid']
            rw [hrid']
            omega
          · simp only [if_neg hrid']
            exact h.claimBound pid process hmem rid'
        · exact h.claimBound pid' p' hold rid'
      · intro rid' r' hmem'
        have hsum := sum_map_set s.processes
          (fun pe => pe.2.allocated.getD rid' 0) pid process
          { process with allocated :=
              if process.allocated.getD rid 0 - u = 0 then process.allocated.erase rid
              else process.allocated.set rid (process.allocated.getD rid 0 - u) }
          h.procNodup hmem
        simp only [hgalloc rid'] at hsum
        rcases (hresiff rid' r').mp hmem' with ⟨he1, he2⟩ | ⟨holdr, hner⟩
        · have hcons := h.conservation rid resource hrmem
          subst he2
          rw [he1] at hsum ⊢
          rw [if_pos rfl] at hsum
          simp only [allocSum] at hcons hsum ⊢
          omega
        · have hcons := h.conservation rid' r' holdr
          rw [if_neg hner] at hsum
          simp only [allocSum] at hcons hsum ⊢
          omega

/-- Effect of a release of exactly the recorded allocation: it succeeds and
deletes the allocation key of the process, leaving the process-map keys
unchanged. -/
theorem release_exact (s : SystemState) (pid rid : String) (u : Nat)
    (process : Process)
    (hp : s.processes.get? pid = some process)
    (hcur : process.allocated.getD rid 0 = u) (hu : u ≠ 0)
    (hres : s.resources.hasKey rid = true) :
    (s.release pid rid u).2 = .ok true ∧
    (s.release pid rid u).1.processes.get? pid =
      some { process with allocated := process.allocated.erase rid } ∧
    (s.release pid rid u).1.processes.keys = s.processes.keys := by
  have hpk : s.processes.hasKey pid = true := by simp [Dict.hasKey, hp]
  cases hg : s.resources.get? rid with
  | none => simp [Dict.hasKey, hg] at hres
  | some resource =>
      have hgt : ¬ (u > process.allocated.getD rid 0) := by omega
      have hzero : process.allocated.getD rid 0 - u = 0 := by omega
      refine ⟨?_, ?_, ?_⟩
      · simp [SystemState.release, hp, hg, hu, hgt]
      · simp only [SystemState.release, hp, hg, hu, hgt, if_false, if_neg,
          hzero, if_pos, SystemState.logEvent]
        exact Dict.get?_set_self _ _ _
      · simp only [SystemState.release, hp, hg, hu, hgt, if_false, if_neg,
          hzero, if_pos, SystemState.logEvent]
        exact Dict.keys_set_of_hasKey _ _ _ hpk

/-- Running the release loop of `remove_process` over the process's recorded
allocation list empties its `allocated` dict and preserves `WF`. -/
theorem releaseAll_effect :
    ∀ (l : Dict Nat) (s : SystemState) (process : Process) (pid : String),
    WF s → s.processes.get? pid = some process → process.allocated = l →
    WF (releaseAll s pid l).1 ∧
    (∃ process', (releaseAll s pid l).1.processes.get? pid = some process' ∧
      process'.allocated = []) := by
  intro l
  induction l with
  | nil =>
      intro s process pid hwf hp hal
      refine ⟨by simpa [releaseAll] using hwf, process, ?_, hal⟩
      simpa [releaseAll] using hp
  | cons e rest ih =>
      intro s process pid hwf hp hal
      obtain ⟨rid, u⟩ := e
      have hmem := Dict.mem_of_get?_eq_some hp
      have hentry : (rid, u) ∈ process.allocated := by
        rw [hal]; exact List.mem_cons_self _ _
      have hupos : 0 < u := hwf.allocPos pid process hmem rid u hentry
      have halnd := hwf.allocNodup pid process hmem
      have hndcons : rid ∉ (Dict.keys rest) := by
        rw [hal] at halnd
        simpa [Dict.keys] using (List.nodup_cons.mp halnd).1
      have hcur : process.allocated.getD rid 0 = u := by
        rw [hal]
        simp [Dict.getD, Dict.get?]
      have hres : s.resources.hasKey rid = true :=
        hwf.allocKeysExist pid process hmem rid
          (by rw [hal]; simp [Dict.keys])
      obtain ⟨hok, hget, _⟩ := release_exact s pid rid u process hp hcur
        (by omega) hres
      have hsplit : s.release pid rid u = ((s.release pid rid u).1, .ok true) := by
        rw [← hok]
      have heverase : process.allocated.erase rid = rest := by
        rw [hal]
        exact erase_cons_self_of_not_mem rid u rest hndcons
      have hwf1 : WF (s.release pid rid u).1 := wf_release s pid rid u hwf
      have hstep : releaseAll s pid ((rid, u) :: rest) =
          releaseAll (s.release pid rid u).1 pid rest := by
        rw [releaseAll, hsplit]
      rw [hstep]
      exact ih (s.release pid rid u).1
        { process with allocated := process.allocated.erase rid } pid hwf1
        (by exact hget) (by simpa using heverase)

theorem wf_remove_process (s : SystemState) (pid : String) (h : WF s) :
    WF (s.remove_process pid).1 := by
  cases hp : s.processes.get? pid with
  | none => simpa [SystemState.remove_process, hp] using h
  | some process =>
      obtain ⟨hwf1, process', hp', hal'⟩ :=
        releaseAll_effect process.allocated s process pid h hp rfl
      cases hra : releaseAll s pid process.allocated with
      | mk s1 r1 =>
          rw [hra] at hwf1 hp'
          cases r1 with
          | error e =>
              simpa [SystemState.remove_process, hp, hra] using hwf1
          | ok b =>
              simp only [SystemState.remove_process, hp, hra]
              refine wf_logEvent _ _ ?_
              have hmem1 := Dict.mem_of_get?_eq_some hp'
              refine ⟨hwf1.resNodup, ?_, ?_, ?_, ?_, ?_, ?_, ?_⟩
              · exact Dict.nodup_keys_erase _ _ hwf1.procNodup
              · intro pid' p' hq
                exact hwf1.allocNodup pid' p' (List.mem_of_mem_filter hq)
              · intro pid' p' hq
                exact hwf1.reqNodup pid' p' (List.mem_of_mem_filter hq)
              · intro pid' p' hq
                exact hwf1.allocPos pid' p' (List.mem_of_mem_filter hq)
              · intro pid' p' hq
                exact hwf1.allocKeysExist pid' p' (List.mem_of_mem_filter hq)
              · intro pid' p' hq
                exact hwf1.claimBound pid' p' (List.mem_of_mem_filter hq)
              · intro rid r hmemr
                have hcons := hwf1.conservation rid r hmemr
                have hsum := sum_map_erase s1.processes
                  (fun pe => pe.2.allocated.getD rid 0) pid process'
                  hwf1.procNodup hmem1
                have hzero : process'.allocated.getD rid 0 = 0 := by
                  rw [hal']
                  rfl
                simp only [hzero] at hsum
                simp only [allocSum] at hcons ⊢
                omega

theorem wf_applyOp (s : SystemState) (op : Op) (h : WF s) : WF (applyOp s op) := by
  cases op with
  | addResource rid u => exact wf_add_resource s rid u h
  | addProcess pid claims prio => exact wf_add_process s pid claims prio h
  | request pid rid u => exact wf_request s pid rid u h
  | allocate pid rid u => exact wf_allocate s pid rid u h
  | release pid rid u => exact wf_release s pid rid u h
  | removeProcess pid => exact wf_remove_process s pid h

theorem wf_foldl (ops : List Op) :
    ∀ s : SystemState, WF s → WF (ops.foldl applyOp s) := by
  induction ops with
  | nil => intro s h; simpa using h
  | cons op rest ih =>
      intro s h
      simpa using ih (applyOp s op) (wf_applyOp s op h)

/-- Every state reachable through the API is well formed. -/
theorem wf_runOps (ops : List Op) : WF (runOps ops) :=
  wf_foldl ops initState wf_initState

/-- Pending requested units of a process for a resource, 0 for unknown ids. -/
def requestedOf (s : SystemState) (pid rid : String) : Nat :=
  match s.processes.get? pid with
  | some p => p.requested.getD rid 0
  | none => 0

/-- Allocated units of a process for a resource, 0 for unknown ids. -/
def allocatedOf (s : SystemState) (pid rid : String) : Nat :=
  match s.processes.get? pid with
  | some p => p.allocated.getD rid 0
  | none => 0

/-- Max-claim units of a process for a resource, 0 for unknown ids. -/
def maxClaimsOf (s : SystemState) (pid rid : String) : Nat :=
  match s.processes.get? pid with
  | some p => p.max_claims.getD rid 0
  | none => 0

/-- Call sequence whose final state refutes the request-validity invariant:
two requests of 1 unit each both pass the `units > need` check, because
`need` ignores pending requests. -/
def twoRequestOps : List Op :=
  [.addResource "R" 1, .addProcess "P" [("R", 1)] 0,
   .request "P" "R" 1, .request "P" "R" 1]

/-- C1: the invariant `requested(p, r) + allocated(p, r) ≤ max_claims(p, r)`
fails on a reachable state: after `add_resource("R", 1)`,
`add_process("P", {R: 1})` and two successful `request("P", "R", 1)` calls,
`requested = 2` exceeds `max_claims = 1`. -/
theorem c1_requested_bound_counterexample :
    requestedOf (runOps twoRequestOps) "P" "R"
      + allocatedOf (runOps twoRequestOps) "P" "R"
      > maxClaimsOf (runOps twoRequestOps) "P" "R" := by decide

/-- C1 (amended): on every reachable state, `allocated(p, r) ≤
max_claims(p, r)`, and any single successful `request(p, r, u)` satisfies
`u + allocated(p, r) ≤ max_claims(p, r)` at call time; the cumulative
`requested(p, r)` can still exceed `need` after several requests. -/
theorem c1_request_validity_amended (ops : List Op) (pid rid : String)
    (p : Process) (u : Nat)
    (hp : (runOps ops).processes.get? pid = some p)
    (hsucc : ((runOps ops).request pid rid u).2 = .ok true) :
    p.allocated.getD rid 0 ≤ p.max_claims.getD rid 0 ∧
    u + p.allocated.getD rid 0 ≤ p.max_claims.getD rid 0 := by
  have hwf := wf_runOps ops
  have hmem := Dict.mem_of_get?_eq_some hp
  have hcb := hwf.claimBound pid p hmem rid
  refine ⟨hcb, ?_⟩
  by_cases hr : (runOps ops).resources.hasKey rid = true
  · by_cases hu : u = 0
    · simp [SystemState.request, hp, hr, hu] at hsucc
    · by_cases hneed : (u : Int) > p.need rid
      · simp [SystemState.request, hp, hr, hu, hneed] at hsucc
      · simp only [Process.need, not_lt] at hneed
        omega
  · have hr' : (runOps ops).resources.hasKey rid = false := by simpa using hr
    simp [SystemState.request, hp, hr'] at hsucc

/-- Witness for the amended C1 at the state reached by
`add_resource("R1", 2)`, `add_process("P1", {R1: 2})`,
`allocate("P1", "R1", 1)` and the accepted request `request("P1", "R1", 1)`. -/
theorem c1_request_validity_amended_witness :
    (⟨"P1", [("R1", 2)], [("R1", 1)], [], 0⟩ : Process).allocated.getD "R1" 0
      ≤ (⟨"P1", [("R1", 2)], [("R1", 1)], [], 0⟩ : Process).max_claims.getD "R1" 0 ∧
    1 + (⟨"P1", [("R1", 2)], [("R1", 1)], [], 0⟩ : Process).allocated.getD "R1" 0
      ≤ (⟨"P1", [("R1", 2)], [("R1", 1)], [], 0⟩ : Process).max_claims.getD "R1" 0 :=
  c1_request_validity_amended
    [.addResource "R1" 2, .addProcess "P1" [("R1", 2)] 0, .allocate "P1" "R1" 1]
    "P1" "R1" ⟨"P1", [("R1", 2)], [("R1", 1)], [], 0⟩ 1 (by decide) (by rfl)

/-- C3: conservation holds on every reachable state: for every resource
entry, `available + Σ_p allocated(p, r) = total`; since every call sequence
(successful, refused or raising) leads to such a state, every operation
preserves the equality. -/
theorem c3_conservation (ops : List Op) (rid : String) (r : Resource)
    (hmem : (rid, r) ∈ (runOps ops).resources) :
    r.available_units + allocSum (runOps ops) rid = r.total_units :=
  (wf_runOps ops).conservation rid r hmem

/-- Witness for C3 after `add_resource("R1", 2)`, `add_process`,
`allocate("P1", "R1", 1)`: available 1 plus allocated 1 equals total 2. -/
theorem c3_conservation_witness :
    (Resource.mk "R1" 2 1).available_units
      + allocSum (runOps [.addResource "R1" 2,
          .addProcess "P1" [("R1", 2)] 0, .allocate "P1" "R1" 1]) "R1"
      = (Resource.mk "R1" 2 1).total_units :=
  c3_conservation
    [.addResource "R1" 2, .addProcess "P1" [("R1", 2)] 0, .allocate "P1" "R1" 1]
    "R1" (Resource.mk "R1" 2 1) (by decide)

/-- Available units of a resource, 0 for an unknown id. -/
def availableOf (s : SystemState) (rid : String) : Nat :=
  match s.resources.get? rid with
  | some r => r.available_units
  | none => 0

/-- C7: for an existing process and resource and `units > 0`: if
`units > need(p, r)` the request returns `False` without raising, leaves
processes (hence allocated and requested) and resources (hence available)
unchanged and appends a refusal record; if `units ≤ need(p, r)` it returns
`True`, increments `requested(p, r)` by `units`, moves no units (allocated
and available unchanged) and appends a request record. -/
theorem c7_request_semantics (s : SystemState) (pid rid : String) (u : Nat)
    (p : Process) (hp : s.processes.get? pid = some p)
    (hr : s.resources.hasKey rid = true) (hu : u ≠ 0) :
    (((u : Int) > p.need rid) →
      (s.request pid rid u).2 = .ok false ∧
      (s.request pid rid u).1.processes = s.processes ∧
      (s.request pid rid u).1.resources = s.resources ∧
      (s.request pid rid u).1.event_log =
        s.event_log ++ [.requestRejected pid rid u "exceeds_need"]) ∧
    (((u : Int) ≤ p.need rid) →
      (s.request pid rid u).2 = .ok true ∧
      requestedOf (s.request pid rid u).1 pid rid = requestedOf s pid rid + u ∧
      allocatedOf (s.request pid rid u).1 pid rid = allocatedOf s pid rid ∧
      (s.request pid rid u).1.resources = s.resources ∧
      (s.request pid rid u).1.event_log =
        s.event_log ++ [.requestRecorded pid rid u]) := by
  constructor
  · intro hneed
    simp [SystemState.request, hp, hr, hu, hneed, SystemState.logEvent]
  · intro hneed
    have hneed' : ¬ ((u : Int) > p.need rid) := not_lt.mpr hneed
    simp only [SystemState.request, hp, hr, hu, hneed', Bool.not_true,
      Bool.false_eq_true, if_false, if_neg, SystemState.logEvent]
    refine ⟨?_, ?_, ?_, ?_, ?_⟩ <;>
      first
        | trivial
        | simp [requestedOf, allocatedOf, Dict.get?_set_self, hp, Dict.getD_set_self]

/-- Witness for C7 at spec scenario 4: resource `R1` with 10 units, process
`P1` with max claim 5 and 3 allocated; `request(P1, R1, 3)` is refused
(need is 2) with no mutation, `request(P1, R1, 2)` is recorded. -/
theorem c7_request_semantics_witness :
    ((runOps [.addResource "R1" 10, .addProcess "P1" [("R1", 5)] 0,
        .allocate "P1" "R1" 3]).request "P1" "R1" 3).2 = .ok false ∧
    (((runOps [.addResource "R1" 10, .addProcess "P1" [("R1", 5)] 0,
        .allocate "P1" "R1" 3]).request "P1" "R1" 2).2 = .ok true ∧
      requestedOf ((runOps [.addResource "R1" 10, .addProcess "P1" [("R1", 5)] 0,
        .allocate "P1" "R1" 3]).request "P1" "R1" 2).1 "P1" "R1" =
      requestedOf (runOps [.addResource "R1" 10, .addProcess "P1" [("R1", 5)] 0,
        .allocate "P1" "R1" 3]) "P1" "R1" + 2) := by
  have h3 := (c7_request_semantics
    (runOps [.addResource "R1" 10, .addProcess "P1" [("R1", 5)] 0,
      .allocate "P1" "R1" 3]) "P1" "R1" 3
    ⟨"P1", [("R1", 5)], [("R1", 3)], [], 0⟩ (by rfl) (by rfl) (by decide)).1
    (by decide)
  have h2 := (c7_request_semantics
    (runOps [.addResource "R1" 10, .addProcess "P1" [("R1", 5)] 0,
      .allocate "P1" "R1" 3]) "P1" "R1" 2
    ⟨"P1", [("R1", 5)], [("R1", 3)], [], 0⟩ (by rfl) (by rfl) (by decide)).2
    (by decide)
  exact ⟨h3.1, h2.1, h2.2.1⟩

/-- Call sequence reaching a state that is safe for the Banker yet has a
wait-for cycle: both pending requests are satisfiable from available units,
so every process can finish, but the WFG ignores quantities. -/
def safeCycleOps : List Op :=
  [.addResource "R1" 2, .addResource "R2" 2,
   .addProcess "P1" [("R1", 1), ("R2", 1)] 0,
   .addProcess "P2" [("R1", 1), ("R2", 1)] 0,
   .allocate "P1" "R1" 1, .allocate "P2" "R2" 1,
   .request "P1" "R2" 1, .request "P2" "R1" 1]

/-- C2: refuted.  The state reached by `safeCycleOps` satisfies all
data-model invariants (`WF`), `find_safe_sequence` reports safe, yet
`analyze_deadlock` reports a deadlock, because the wait-for graph has the
cycle `P1 → P2 → P1` even though both requests are grantable. -/
theorem c2_safety_deadlock_counterexample :
    WF (runOps safeCycleOps) ∧
    (find_safe_sequence (runOps safeCycleOps)).1 = true ∧
    hasDeadlock (runOps safeCycleOps) = true :=
  ⟨wf_runOps safeCycleOps, by decide, by decide⟩

/-- C2 (amended): if `find_safe_sequence` reports safe and no process has a
pending request, then `analyze_deadlock` reports no deadlock (the wait-for
graph has no edge at all, hence no cycle). -/
theorem c2_safety_no_deadlock_amended (s : SystemState)
    (hsafe : (find_safe_sequence s).1 = true)
    (hnoreq : ∀ e ∈ s.processes, e.2.requested = []) :
    hasDeadlock s = false := by
  have hedges : wfgEdges s = [] := by
    unfold wfgEdges
    refine List.flatMap_eq_nil_iff.mpr ?_
    intro pe hpe
    rw [hnoreq pe hpe]
    rfl
  rw [hasDeadlock, hedges]
  rfl

/-- Witness for the amended C2: one process holding one unit with no pending
request; the state is safe and deadlock-free. -/
theorem c2_safety_no_deadlock_amended_witness :
    hasDeadlock (runOps [.addResource "R1" 2,
      .addProcess "P1" [("R1", 1)] 0, .allocate "P1" "R1" 1]) = false :=
  c2_safety_no_deadlock_amended
    (runOps [.addResource "R1" 2, .addProcess "P1" [("R1", 1)] 0,
      .allocate "P1" "R1" 1])
    (by decide) (by decide)

theorem Dict.get?_eq_some_getD_of_pos {d : Dict Nat} {k : String}
    (h : 0 < d.getD k 0) : d.get? k = some (d.getD k 0) := by
  cases hg : d.get? k with
  | none => simp [Dict.getD, hg] at h
  | some v => simp [Dict.getD, hg]

/-- C8: the wait-for graph has exactly the edges `p → q` with `p ≠ q`, `p`
having a positive pending request on some resource of which `q` holds a
positive allocation; in particular no self-edges. -/
theorem c8_wfg_edge_iff (s : SystemState)
    (hnd : s.processes.keys.Nodup)
    (hrq : ∀ e ∈ s.processes, e.2.requested.keys.Nodup)
    (p q : String) :
    (((p, q) ∈ wfgEdges s) ↔
      (p ≠ q ∧ ∃ pp qp rid, s.processes.get? p = some pp ∧
        s.processes.get? q = some qp ∧
        0 < pp.requested.getD rid 0 ∧ 0 < qp.allocated.getD rid 0)) ∧
    (p, p) ∉ wfgEdges s := by
  have hmain : ∀ q' : String, ((p, q') ∈ wfgEdges s) ↔
      (p ≠ q' ∧ ∃ pp qp rid, s.processes.get? p = some pp ∧
        s.processes.get? q' = some qp ∧
        0 < pp.requested.getD rid 0 ∧ 0 < qp.allocated.getD rid 0) := by
    intro q'
    constructor
    · intro hmem
      rcases List.mem_flatMap.mp hmem with ⟨pe, hpe, hinner⟩
      obtain ⟨ppid, pproc⟩ := pe
      rcases List.mem_flatMap.mp hinner with ⟨re, hre, hinner2⟩
      obtain ⟨rrid, ru⟩ := re
      by_cases hz : ru = 0
      · simp only [hz, if_pos rfl] at hinner2
        simp at hinner2
      · rw [if_neg (by simpa using hz)] at hinner2
        rcases List.mem_filterMap.mp hinner2 with ⟨qe, hqe, hcond⟩
        obtain ⟨qpid, qproc⟩ := qe
        by_cases heq : qpid = ppid
        · simp [heq] at hcond
        · rw [if_neg (by simpa using heq)] at hcond
          by_cases halloc : qproc.allocated.getD rrid 0 > 0
          · rw [if_pos (by simpa using halloc)] at hcond
            injection hcond with hpair
            injection hpair with hp1 hq1
            subst hp1
            subst hq1
            refine ⟨fun hpq => heq hpq.symm, pproc, qproc, rrid, ?_, ?_, ?_, halloc⟩
            · exact Dict.get?_eq_some_of_mem hnd hpe
            · exact Dict.get?_eq_some_of_mem hnd hqe
            · have hg := Dict.get?_eq_some_of_mem
                (hrq (ppid, pproc) hpe) hre
              have : pproc.requested.getD rrid 0 = ru := by
                simp [Dict.getD, hg]
              omega
          · rw [if_neg (by simpa using halloc)] at hcond
            simp at hcond
    · rintro ⟨hne, pp, qp, rid, hgp, hgq, hreq, halloc⟩
      refine List.mem_flatMap.mpr ⟨(p, pp), Dict.mem_of_get?_eq_some hgp, ?_⟩
      refine List.mem_flatMap.mpr ⟨(rid, pp.requested.getD rid 0),
        Dict.mem_of_get?_eq_some (Dict.get?_eq_some_getD_of_pos hreq), ?_⟩
      rw [if_neg (by omega)]
      refine List.mem_filterMap.mpr ⟨(q', qp), Dict.mem_of_get?_eq_some hgq, ?_⟩
      rw [if_neg (by simpa using fun h => hne h.symm), if_pos (by simpa using halloc)]
  refine ⟨hmain q, ?_⟩
  intro hself
  rcases (hmain p).mp hself with ⟨hne, _⟩
  exact hne rfl

/-- Witness for C8 on the classic two-process circular wait: the edge
`(P1, P2)` is present, characterised by `P1` pending on `R2` held by `P2`,
and `(P1, P1)` is absent. -/
theorem c8_wfg_edge_iff_witness :
    (("P1", "P2") ∈ wfgEdges (runOps safeCycleOps)) ∧
    ("P1", "P1") ∉ wfgEdges (runOps safeCycleOps) := by
  have h := c8_wfg_edge_iff (runOps safeCycleOps) (by decide) (by decide) "P1" "P2"
  have h2 := c8_wfg_edge_iff (runOps safeCycleOps) (by decide) (by decide) "P1" "P1"
  refine ⟨?_, h2.2⟩
  refine h.1.mpr ⟨by decide,
    ⟨"P1", [("R1", 1), ("R2", 1)], [("R1", 1)], [("R2", 1)], 0⟩,
    ⟨"P2", [("R1", 1), ("R2", 1)], [("R2", 1)], [("R1", 1)], 0⟩,
    "R2", by decide, by decide, by decide, by decide⟩

/-- Call sequence reaching a state where `P` holds one unit of `R2` only. -/
def holdUnorderedOps : List Op :=
  [.addResource "R1" 1, .addResource "R2" 1,
   .addProcess "P" [("R1", 1), ("R2", 1)] 0,
   .allocate "P" "R2" 1]

/-- C9: refuted.  With configured ordering `["R1"]`, a process holding only
`R2` (absent from the ordering) makes `should_allow` raise `ValueError`
(`max()` over an empty generator) instead of returning an (allow, reason)
pair. -/
theorem c9_should_allow_counterexample :
    shouldAllow ["R1"] (runOps holdUnorderedOps) "P" [("R1", 1)]
      = .error "ValueError: max() arg is an empty sequence" := by rfl

/-- C9 (amended): for an existing process, `should_allow` raises exactly
when the process holds at least one resource but none of its held resources
appear in the effective ordering; otherwise it returns normally and allows
iff the process holds nothing or every requested resource with a known rank
has rank at least the maximum rank `h` of the held ordered resources
(requested resources absent from the ordering are ignored). -/
theorem c9_should_allow_amended (order : List String) (s : SystemState)
    (pid : String) (req : Dict Nat) (process : Process)
    (hp : s.processes.get? pid = some process) :
    ((∃ e, shouldAllow order s pid req = .error e) ↔
      (heldResources process ≠ [] ∧
        heldRanks (effectiveOrder order s) process = [])) ∧
    (∀ allow reason, shouldAllow order s pid req = .ok (allow, reason) →
      (allow = true ↔ (heldResources process = [] ∨
        ∀ r ∈ req.keys, r ∈ effectiveOrder order s →
          (heldRanks (effectiveOrder order s) process).max?.getD 0 ≤
            (effectiveOrder order s).indexOf r))) := by
  by_cases hheld : heldResources process = []
  · constructor
    · constructor
      · rintro ⟨e, he⟩
        simp [shouldAllow, hp, hheld] at he
      · rintro ⟨h1, _⟩
        exact absurd hheld h1
    · intro allow reason hok
      simp only [shouldAllow, hp, hheld, List.isEmpty_nil, if_pos] at hok
      injection hok with hpair
      injection hpair with ha hb
      subst ha
      simp [hheld]
  · have hne : (heldResources process).isEmpty = false := by
      simpa [List.isEmpty_iff] using hheld
    cases hmax : (heldRanks (effectiveOrder order s) process).max? with
    | none =>
        have hnil : heldRanks (effectiveOrder order s) process = [] := by
          cases hl : heldRanks (effectiveOrder order s) process with
          | nil => rfl
          | cons a l =>
              rw [hl] at hmax
              simp [List.max?_cons] at hmax
        constructor
        · constructor
          · intro _
            exact ⟨hheld, hnil⟩
          · intro _
            refine ⟨"ValueError: max() arg is an empty sequence", ?_⟩
            simp [shouldAllow, hp, hne, hmax]
        · intro allow reason hok
          simp [shouldAllow, hp, hne, hmax] at hok
    | some hrank =>
        have hnnil : heldRanks (effectiveOrder order s) process ≠ [] := by
          intro hl
          rw [hl] at hmax
          simp at hmax
        cases hfind : req.keys.find? (fun r =>
            (effectiveOrder order s).contains r &&
              decide ((effectiveOrder order s).indexOf r < hrank)) with
        | some r =>
            have hpred := List.find?_some hfind
            have hmemr := List.mem_of_find?_eq_some hfind
            simp only [Bool.and_eq_true, decide_eq_true_eq] at hpred
            constructor
            · constructor
              · rintro ⟨e, he⟩
                simp only [shouldAllow, hp, hne, hmax, Bool.false_eq_true,
                  if_false, if_neg] at he
                split at he <;> simp at he
              · rintro ⟨_, h2⟩
                exact absurd h2 hnnil
            · intro allow reason hok
              simp only [shouldAllow, hp, hne, hmax, hfind, Bool.false_eq_true,
                if_false, if_neg] at hok
              injection hok with hpair
              injection hpair with ha hb
              subst ha
              constructor
              · intro hfalse
                exact absurd hfalse (by simp)
              · intro hrhs
                exfalso
                rcases hrhs with h1 | h1
                · exact absurd h1 hheld
                · have h3 := h1 r hmemr (by simpa using hpred.1)
                  simp only [Option.getD_some] at h3
                  omega
        | none =>
            constructor
            · constructor
              · rintro ⟨e, he⟩
                simp only [shouldAllow, hp, hne, hmax, Bool.false_eq_true,
                  if_false, if_neg] at he
                split at he <;> simp at he
              · rintro ⟨_, h2⟩
                exact absurd h2 hnnil
            · intro allow reason hok
              simp only [shouldAllow, hp, hne, hmax, hfind, Bool.false_eq_true,
                if_false, if_neg] at hok
              injection hok with hpair
              injection hpair with ha hb
              subst ha
              constructor
              · intro _
                right
                intro r hr hrmem
                have hnp := List.find?_eq_none.mp hfind r hr
                simp only [Bool.and_eq_true, decide_eq_true_eq, not_and,
                  Bool.not_eq_true] at hnp
                have h4 := hnp (by simpa using hrmem)
                simp only [Option.getD_some]
                omega
              · intro _
                rfl

/-- Tie-break scenario: resource `R` with 5 units; `A` needs 2 and holds 0,
`B` needs 1 (holds 2), `C` needs 2 (holds 2); available is 1. -/
def tieOps : List Op :=
  [.addResource "R" 5,
   .addProcess "A" [("R", 2)] 0, .addProcess "B" [("R", 3)] 0,
   .addProcess "C" [("R", 4)] 0,
   .allocate "B" "R" 2, .allocate "C" "R" 2]

/-- C5: refuted.  On `tieOps` the computed sequence is `[B, C, A]`: when `C`
is appended (right after `B`, with work `{R: 3}`), process `A` is unfinished,
qualifies (`canFinish` holds at work 3) and comes first in insertion order
(`[A, B, C]`), yet `C` is appended before `A`, because the pass continues
scanning from the position after `B` instead of restarting. -/
theorem c5_tiebreak_counterexample :
    (find_safe_sequence (runOps tieOps)).2 = some ["B", "C", "A"] ∧
    canFinish ⟨"A", [("R", 2)], [], [], 0⟩ ["R"] [("R", 3)] = true ∧
    (runOps tieOps).processes.keys = ["A", "B", "C"] := by decide

/-- First unfinished process, in iteration order, whose needs fit in the
given work vector. -/
def firstCandidate (resource_ids : List String) (work : Dict Nat)
    (finish : Dict Bool) : List (String × Process) → Option String
  | [] => none
  | (pid, proc) :: rest =>
      if finish.getD pid false then firstCandidate resource_ids work finish rest
      else if canFinish proc resource_ids work then some pid
      else firstCandidate resource_ids work finish rest

theorem onePass_seq_extends (resource_ids : List String) :
    ∀ (procs : List (String × Process)) (st : PassState),
    ∃ t, (onePass resource_ids procs st).seq = st.seq ++ t := by
  intro procs
  induction procs with
  | nil => intro st; exact ⟨[], by simp [onePass]⟩
  | cons e rest ih =>
      intro st
      obtain ⟨pid, proc⟩ := e
      by_cases hfin : st.finish.getD pid false
      · simpa [onePass, hfin] using ih st
      · by_cases hcan : canFinish proc resource_ids st.work
        · obtain ⟨t, ht⟩ := ih
            { work := addAllocToWork proc resource_ids st.work,
              finish := st.finish.set pid true,
              seq := st.seq ++ [pid],
              progress := true }
          refine ⟨pid :: t, ?_⟩
          simp only [onePass, hfin, hcan, Bool.false_eq_true, if_false, if_pos]
          rw [ht]
          simp
        · simpa [onePass, hfin, hcan] using ih st

/-- C5 (amended): within one pass the processes are examined in iteration
order, so the first unfinished process whose needs fit in the work vector at
the start of the pass is the one appended next (at position `st.seq.length`
of the sequence); and `find_safe_sequence` is a function of the state, so
equal states (same insertion order) give identical results.  A process that
only starts to qualify in the middle of a pass may however be appended after
later-listed processes, as the counterexample shows. -/
theorem c5_tiebreak_amended (resource_ids : List String)
    (procs : List (String × Process)) (st : PassState) (p : String)
    (hfc : firstCandidate resource_ids st.work st.finish procs = some p) :
    (onePass resource_ids procs st).seq.get? st.seq.length = some p ∧
    (∀ s1 s2 : SystemState, s1 = s2 →
      find_safe_sequence s1 = find_safe_sequence s2) := by
  refine ⟨?_, fun s1 s2 h => congrArg find_safe_sequence h⟩
  induction procs generalizing st with
  | nil => simp [firstCandidate] at hfc
  | cons e rest ih =>
      obtain ⟨pid, proc⟩ := e
      by_cases hfin : st.finish.getD pid false
      · rw [firstCandidate, if_pos hfin] at hfc
        simpa [onePass, hfin] using ih st hfc
      · by_cases hcan : canFinish proc resource_ids st.work
        · rw [firstCandidate, if_neg (by simpa using hfin), if_pos hcan] at hfc
          injection hfc with hpp
          subst hpp
          obtain ⟨t, ht⟩ := onePass_seq_extends resource_ids rest
            { work := addAllocToWork proc resource_ids st.work,
              finish := st.finish.set pid true,
              seq := st.seq ++ [pid],
              progress := true }
          simp only [onePass, hfin, hcan, Bool.false_eq_true, if_false, if_pos]
          rw [ht]
          simp only at ht ⊢
          rw [List.append_assoc]
          rw [List.get?_append_right (by omega)]
          simp
        · rw [firstCandidate, if_neg (by simpa using hfin),
            if_neg (by simpa using hcan)] at hfc
          simpa [onePass, hfin, hcan] using ih st hfc

/-- Witness for the amended C5 on `tieOps`: the first qualifying process at
the start of the first pass is `B`, and `B` is indeed appended at position 0;
the determinism conjunct is instantiated reflexively. -/
theorem c5_tiebreak_amended_witness :
    (onePass ["R"] (runOps tieOps).processes
      { work := [("R", 1)], finish := [("A", false), ("B", false), ("C", false)],
        seq := [], progress := false }).seq.get? 0 = some "B" ∧
    find_safe_sequence (runOps tieOps) = find_safe_sequence (runOps tieOps) := by
  have h := c5_tiebreak_amended ["R"] (runOps tieOps).processes
    { work := [("R", 1)], finish := [("A", false), ("B", false), ("C", false)],
      seq := [], progress := false } "B" (by decide)
  exact ⟨h.1, h.2 _ _ rfl⟩

/-- Unfinished-process count of a pass state over a process list. -/
def unfinCount (procs : List (String × Process)) (finish : Dict Bool) : Nat :=
  (procs.map Prod.fst).countP (fun pid => !(finish.getD pid false))

theorem onePass_finish_mono (resource_ids : List String) :
    ∀ (procs : List (String × Process)) (st : PassState) (pid : String),
    st.finish.getD pid false = true →
    (onePass resource_ids procs st).finish.getD pid false = true := by
  intro procs
  induction procs with
  | nil => intro st pid h; simpa [onePass] using h
  | cons e rest ih =>
      intro st pid h
      obtain ⟨qid, qproc⟩ := e
      by_cases hfin : st.finish.getD qid false
      · rw [onePass, if_pos hfin]
        exact ih st pid h
      · by_cases hcan : canFinish qproc resource_ids st.work
        · rw [onePass, if_neg (by simpa using hfin), if_pos hcan]
          refine ih _ pid ?_
          by_cases hpq : pid = qid
          · subst hpq
            simp [Dict.getD_set_self]
          · simpa [Dict.getD_set_ne _ _ _ hpq] using h
        · rw [onePass, if_neg (by simpa using hfin), if_neg hcan]
          exact ih st pid h

theorem onePass_progress_flip (resource_ids : List String) :
    ∀ (procs : List (String × Process)) (st : PassState),
    st.progress = false →
    (onePass resource_ids procs st).progress = true →
    ∃ pid, pid ∈ procs.map Prod.fst ∧ st.finish.getD pid false = false ∧
      (onePass resource_ids procs st).finish.getD pid false = true := by
  intro procs
  induction procs with
  | nil =>
      intro st h hp
      rw [onePass] at hp
      rw [h] at hp
      exact absurd hp (by simp)
  | cons e rest ih =>
      intro st h hp
      obtain ⟨qid, qproc⟩ := e
      by_cases hfin : st.finish.getD qid false
      · rw [onePass, if_pos hfin] at hp ⊢
        rcases ih st h hp with ⟨pid, hmem, hb, ha⟩
        exact ⟨pid, by simp [hmem], hb, ha⟩
      · by_cases hcan : canFinish qproc resource_ids st.work
        · refine ⟨qid, by simp, by simpa using hfin, ?_⟩
          rw [onePass, if_neg (by simpa using hfin), if_pos hcan]
          refine onePass_finish_mono resource_ids rest _ qid ?_
          simp [Dict.getD_set_self]
        · rw [onePass, if_neg (by simpa using hfin), if_neg hcan] at hp ⊢
          rcases ih st h hp with ⟨pid, hmem, hb, ha⟩
          exact ⟨pid, by simp [hmem], hb, ha⟩

theorem countP_lt_of_flip (l : List String) (f g : String → Bool)
    (hmono : ∀ x, f x = true → g x = true)
    (x₀ : String) (hx₀ : x₀ ∈ l) (hbefore : f x₀ = false) (hafter : g x₀ = true) :
    l.countP (fun x => !(g x)) < l.countP (fun x => !(f x)) := by
  induction l with
  | nil => simp at hx₀
  | cons a rest ih =>
      have h1 : rest.countP (fun x => !(g x)) ≤ rest.countP (fun x => !(f x)) := by
        refine List.countP_mono_left ?_
        intro x _ hgx
        simp only [Bool.not_eq_true'] at hgx ⊢
        cases hfx : f x with
        | false => rfl
        | true => exact absurd (hmono x hfx) (by simp [hgx])
      rcases List.mem_cons.mp hx₀ with ha | ha
      · subst ha
        simp only [List.countP_cons, hbefore, hafter]
        simp
        omega
      · have h2 := ih ha
        simp only [List.countP_cons]
        cases hfa : f a with
        | true =>
            have hga := hmono a hfa
            simp only [hfa, hga, Bool.not_true, Bool.false_eq_true, if_false]
            omega
        | false =>
            cases hga : g a with
            | true =>
                simp only [hfa, hga, Bool.not_true, Bool.not_false,
                  Bool.false_eq_true, if_false, if_true]
                omega
            | false =>
                simp only [hfa, hga, Bool.not_false, if_true]
                omega

theorem unfinCount_le_length (procs : List (String × Process)) (finish : Dict Bool) :
    unfinCount procs finish ≤ procs.length := by
  calc unfinCount procs finish ≤ (procs.map Prod.fst).length := List.countP_le_length _
  _ = procs.length := by simp

/-- Unfolding equation of the loop for one unit of fuel. -/
theorem bankerLoop_succ (procs : List (String × Process))
    (resource_ids : List String) (f : Nat) (st : PassState) :
    bankerLoop procs resource_ids (f + 1) st =
      if (onePass resource_ids procs { st with progress := false }).progress
      then bankerLoop procs resource_ids f
        (onePass resource_ids procs { st with progress := false })
      else onePass resource_ids procs { st with progress := false } := rfl

/-- Stabilisation of the safety loop: once the fuel exceeds the number of
unfinished processes, adding more fuel does not change the result, because
every progressing pass finishes at least one process. -/
theorem bankerLoop_stable (procs : List (String × Process))
    (resource_ids : List String) :
    ∀ (n : Nat) (st : PassState), unfinCount procs st.finish ≤ n →
    ∀ k, bankerLoop procs resource_ids (n + 1 + k) st
      = bankerLoop procs resource_ids (n + 1) st := by
  intro n
  induction n with
  | zero =>
      intro st hle k
      rw [show 0 + 1 + k = k + 1 by omega, bankerLoop_succ,
        show (0 + 1 : Nat) = 0 + 1 from rfl, bankerLoop_succ]
      cases hp : (onePass resource_ids procs { st with progress := false }).progress with
      | false => simp [hp]
      | true =>
          rcases onePass_progress_flip resource_ids procs
            { st with progress := false } rfl hp with ⟨pid, hmem, hb, ha⟩
          have hpos : 0 < unfinCount procs st.finish := by
            refine List.countP_pos.mpr ⟨pid, hmem, ?_⟩
            simpa using hb
          omega
  | succ m ih =>
      intro st hle k
      rw [show m + 1 + 1 + k = (m + 1 + k) + 1 by omega, bankerLoop_succ,
        bankerLoop_succ]
      cases hp : (onePass resource_ids procs { st with progress := false }).progress with
      | false => simp [hp]
      | true =>
          simp only [hp, if_true]
          rcases onePass_progress_flip resource_ids procs
            { st with progress := false } rfl hp with ⟨pid, hmem, hb, ha⟩
          have hlt : unfinCount procs
              (onePass resource_ids procs { st with progress := false }).finish
              < unfinCount procs st.finish := by
            refine countP_lt_of_flip _ _ _ ?_ pid hmem hb ha
            intro x hx
            exact onePass_finish_mono resource_ids procs _ x hx
          have hle' : unfinCount procs
              (onePass resource_ids procs { st with progress := false }).finish ≤ m := by
            omega
          exact ih (onePass resource_ids procs { st with progress := false }) hle' k

/-- C10: `find_safe_sequence` terminates within `|processes| + 1` passes of
the outer loop: running the embedded loop with any amount of extra fuel
beyond `|processes| + 1` yields the same result, because every pass that
sets `progress` finishes at least one previously unfinished process and the
loop exits on the first pass without progress. -/
theorem c10_find_safe_sequence_terminates (s : SystemState) (k : Nat) :
    find_safe_sequence_fuel s (s.processes.length + 1 + k) = find_safe_sequence s := by
  rw [find_safe_sequence, find_safe_sequence_fuel, find_safe_sequence_fuel]
  by_cases hemp : s.processes.isEmpty
  · simp [hemp]
  · simp only [hemp, Bool.false_eq_true, if_false]
    have hstable := bankerLoop_stable s.processes s.resources.keys
      s.processes.length
      { work := s.resources.map (fun e => (e.1, e.2.available_units)),
        finish := s.processes.map (fun e => (e.1, false)),
        seq := [], progress := true }
      (unfinCount_le_length _ _) k
    rw [hstable]

/-- Heap with the three dict cells of process `P1`: `max_claims = {R1: 1}`,
`allocated = {}`, `requested = {}`. -/
def aliasHeap : HHeap := [[("R1", 1)], [], []]

/-- Reference-model state: resource `R1` with one unit, process `P1` whose
dicts live at cells 0, 1, 2 of `aliasHeap`. -/
def aliasState : HState :=
  { resources := [("R1", ⟨"R1", 1, 1⟩)],
    processes := [("P1", ⟨0, 1, 2, 0⟩)],
    event_log := [] }

/-- C4: the snapshot taken before a mutation is NOT left unchanged: the
snapshot stores references to the live `requested` dict, so the successful
`request("P1", "R1", 1)` executed afterwards changes what a reader of the
earlier snapshot observes (its `requested` entry goes from `{}` to
`{R1: 1}`).  The spec's immutability statement is the intent; the source
passes the live dicts into the projection instead of copies. -/
theorem c4_snapshot_mutated_by_request :
    ((hRequest aliasHeap aliasState "P1" "R1" 1).2 = .ok true) ∧
    snapContent (hRequest aliasHeap aliasState "P1" "R1" 1).1.1
        (hSnapshot aliasHeap aliasState)
      ≠ snapContent aliasHeap (hSnapshot aliasHeap aliasState) := by
  exact ⟨rfl, by decide⟩

/-- All process dict cells of a state lie inside the heap. -/
def refsBounded (h : HHeap) (s : HState) : Prop :=
  ∀ pid hp, (pid, hp) ∈ s.processes →
    hp.maxRef < h.length ∧ hp.allocRef < h.length ∧ hp.reqRef < h.length

/-- Cells below `n` agree between two heaps. -/
def LowPreserved (n : Nat) (h h' : HHeap) : Prop :=
  ∀ i, i < n → h'.get? i = h.get? i

/-- All process dict cells of a state lie at or above `n`. -/
def AllRefsGE (n : Nat) (s : HState) : Prop :=
  ∀ pid hp, (pid, hp) ∈ s.processes →
    n ≤ hp.maxRef ∧ n ≤ hp.allocRef ∧ n ≤ hp.reqRef

theorem lowPreserved_refl (n : Nat) (h : HHeap) : LowPreserved n h h :=
  fun _ _ => rfl

theorem lowPreserved_trans {n : Nat} {h1 h2 h3 : HHeap}
    (a : LowPreserved n h1 h2) (b : LowPreserved n h2 h3) :
    LowPreserved n h1 h3 :=
  fun i hi => (b i hi).trans (a i hi)

theorem lowPreserved_append (n : Nat) (h t : HHeap) (hn : n ≤ h.length) :
    LowPreserved n h (h ++ t) := by
  intro i hi
  simp [List.getElem?_append_left (by omega : i < h.length)]

theorem lowPreserved_write (n : Nat) (h : HHeap) (j : Nat) (d : Dict Nat)
    (hj : n ≤ j) : LowPreserved n h (h.write j d) := by
  intro i hi
  simp [HHeap.write, List.getElem?_set_ne (by omega : j ≠ i)]

/-- The clone only appends to the heap. -/
theorem hCloneProcs_append (procs : Dict HProcess) :
    ∀ h : HHeap, ∃ t, (hCloneProcs h procs).1 = h ++ t := by
  induction procs with
  | nil => intro h; exact ⟨[], by simp [hCloneProcs]⟩
  | cons e rest ih =>
      intro h
      obtain ⟨pid, hp⟩ := e
      obtain ⟨t, ht⟩ := ih (h ++ [h.read hp.maxRef, h.read hp.allocRef, h.read hp.reqRef])
      refine ⟨[h.read hp.maxRef, h.read hp.allocRef, h.read hp.reqRef] ++ t, ?_⟩
      rw [hCloneProcs]
      simp only [ht]
      simp

/-- Cell addresses handed out by the clone all lie beyond the old heap. -/
theorem hCloneProcs_refs (procs : Dict HProcess) :
    ∀ (h : HHeap) (pid : String) (hp' : HProcess),
    (pid, hp') ∈ (hCloneProcs h procs).2 →
    h.length ≤ hp'.maxRef ∧ h.length ≤ hp'.allocRef ∧ h.length ≤ hp'.reqRef := by
  induction procs with
  | nil => intro h pid hp' hm; simp [hCloneProcs] at hm
  | cons e rest ih =>
      intro h pid hp' hm
      obtain ⟨qid, qhp⟩ := e
      rw [hCloneProcs] at hm
      simp only [List.mem_cons] at hm
      rcases hm with hm | hm
      · injection hm with h1 h2
        subst h2
        refine ⟨by simp, by simp, by simp⟩
      · have := ih (h ++ [h.read qhp.maxRef, h.read qhp.allocRef, h.read qhp.reqRef])
          pid hp' hm
        have hlen : h.length ≤ (h ++ [h.read qhp.maxRef, h.read qhp.allocRef,
          h.read qhp.reqRef]).length := by simp
        exact ⟨by omega, by omega, by omega⟩

/-- `hAllocate` writes only to dict cells of the given state and never
touches its process map. -/
theorem hAllocate_effect (n : Nat) (h : HHeap) (ts : HState)
    (p r : String) (u : Nat) (hge : AllRefsGE n ts) :
    LowPreserved n h ((hAllocate h ts p r u).1.1) ∧
    ((hAllocate h ts p r u).1.2).processes = ts.processes := by
  rw [hAllocate]
  split
  · exact ⟨lowPreserved_refl n h, rfl⟩
  rename_i hp' hpeq
  split
  · exact ⟨lowPreserved_refl n h, rfl⟩
  rename_i resource hreq
  have hrefs := hge p hp' (Dict.mem_of_get?_eq_some hpeq)
  constructor
  · split
    · exact lowPreserved_refl n h
    split
    · exact lowPreserved_refl n h
    dsimp only
    split
    · exact lowPreserved_refl n h
    exact lowPreserved_trans
      (lowPreserved_write n h hp'.allocRef _ hrefs.2.1)
      (lowPreserved_write n _ hp'.reqRef _ hrefs.2.2)
  · split
    · rfl
    split
    · rfl
    dsimp only
    split
    · rfl
    rfl

/-- The tentative-allocation loop preserves low heap cells and the process
map of the clone. -/
theorem hApplyRequest_effect (n : Nat) (p : String) :
    ∀ (req : Dict Nat) (h : HHeap) (ts : HState), AllRefsGE n ts →
    LowPreserved n h ((hApplyRequest h ts p req).1.1) ∧
    ((hApplyRequest h ts p req).1.2).processes = ts.processes := by
  intro req
  induction req with
  | nil => intro h ts _; exact ⟨lowPreserved_refl n h, rfl⟩
  | cons e rest ih =>
      intro h ts hge
      obtain ⟨rid, u⟩ := e
      obtain ⟨ha1, ha2⟩ := hAllocate_effect n h ts p rid u hge
      rw [hApplyRequest]
      rcases hall : hAllocate h ts p rid u with ⟨⟨h1, ts1⟩, res⟩
      rw [hall] at ha1 ha2
      simp only at ha1 ha2
      have hge1 : AllRefsGE n ts1 := by
        intro pid hp hm
        rw [ha2] at hm
        exact hge pid hp hm
      cases res with
      | error e => exact ⟨ha1, ha2⟩
      | ok b =>
          cases b with
          | false => exact ⟨ha1, ha2⟩
          | true =>
              obtain ⟨hb1, hb2⟩ := ih h1 ts1 hge1
              exact ⟨lowPreserved_trans ha1 hb1, by rw [hb2, ha2]⟩

/-- The heap after `is_safe_state` agrees with the heap before on every cell
of the original heap: the clone writes only to fresh cells. -/
theorem is_safe_state_lowPreserved (h : HHeap) (s : HState)
    (proc : Option String) (request : Dict Nat) :
    LowPreserved h.length h (is_safe_state h s proc request).1 := by
  obtain ⟨t, ht⟩ := hCloneProcs_append s.processes h
  have hlp1 : LowPreserved h.length h (hClone h s).1 := by
    rw [hClone]
    simp only [ht]
    exact lowPreserved_append h.length h t le_rfl
  have hge : AllRefsGE h.length (hClone h s).2 := by
    intro pid hp hm
    rw [hClone] at hm
    exact hCloneProcs_refs s.processes h pid hp hm
  obtain ⟨hb1, _⟩ := hApplyRequest_effect h.length
    (match proc with | some p => p | none => "") request
    (hClone h s).1 (hClone h s).2 hge
  rw [is_safe_state.eq_def]
  split
  · exact hlp1
  · exact hlp1
  · split
    · exact hlp1
    · split
      · exact hlp1
      · exact hlp1
      · split
        · rename_i happ
          rw [happ] at hb1
          exact lowPreserved_trans hlp1 hb1
        · rename_i happ
          rw [happ] at hb1
          exact lowPreserved_trans hlp1 hb1

/-- Value projections agree when the low cells agree. -/
theorem toValue_eq_of_lowPreserved (h h' : HHeap) (s : HState)
    (hb : refsBounded h s) (hlp : LowPreserved h.length h h') :
    toValue h' s = toValue h s := by
  unfold toValue
  have hmap : s.processes.map (fun e => (e.1, derefProcess h' e.1 e.2)) =
      s.processes.map (fun e => (e.1, derefProcess h e.1 e.2)) := by
    refine List.map_congr_left ?_
    intro e he
    obtain ⟨pid, hp⟩ := e
    obtain ⟨h1, h2, h3⟩ := hb pid hp he
    simp only [derefProcess, HHeap.read, hlp hp.maxRef h1, hlp hp.allocRef h2,
      hlp hp.reqRef h3]
  rw [hmap]

/-- C6: `is_safe_state` never mutates the original state: the value
projection of the caller's state (its resources with their available units,
every process's `max_claims` / `allocated` / `requested` contents read back
through the heap, and the event log) is identical before and after the call,
whatever the verdict.  The call clones the state (`deepcopy`), so every
write lands in a fresh heap cell. -/
theorem c6_is_safe_state_non_mutation (h : HHeap) (s : HState)
    (proc : Option String) (request : Dict Nat) (hb : refsBounded h s) :
    toValue (is_safe_state h s proc request).1 s = toValue h s :=
  toValue_eq_of_lowPreserved h _ s hb (is_safe_state_lowPreserved h s proc request)

/-- Witness for C6 on the `aliasHeap` / `aliasState` scenario with a
tentative request `{R1: 1}` by `P1`. -/
theorem c6_is_safe_state_non_mutation_witness :
    toValue (is_safe_state aliasHeap aliasState (some "P1") [("R1", 1)]).1
      aliasState = toValue aliasHeap aliasState :=
  c6_is_safe_state_non_mutation aliasHeap aliasState (some "P1") [("R1", 1)]
    (by
      intro pid hp hm
      simp only [aliasState, List.mem_singleton] at hm
      injection hm with h1 h2
      subst h2
      exact ⟨by decide, by decide, by decide⟩)

/-- Witness for the amended C9: on the crash scenario the error
characterisation fires — `P` holds `R2` (so `heldResources` is non-empty)
and no held resource appears in the configured ordering `["R1"]`. -/
theorem c9_should_allow_amended_witness :
    heldResources (⟨"P", [("R1", 1), ("R2", 1)], [("R2", 1)], [], 0⟩ : Process) ≠ [] ∧
    heldRanks (effectiveOrder ["R1"] (runOps holdUnorderedOps))
      (⟨"P", [("R1", 1), ("R2", 1)], [("R2", 1)], [], 0⟩ : Process) = [] :=
  (c9_should_allow_amended ["R1"] (runOps holdUnorderedOps) "P" [("R1", 1)]
    ⟨"P", [("R1", 1), ("R2", 1)], [("R2", 1)], [], 0⟩ (by rfl)).1.mp
    ⟨"ValueError: max() arg is an empty sequence", by rfl⟩
